import Mathlib

/- Verification development for the `qm` repository: dense matrices
(`src/containers/matrix.hpp` over `src/containers/array.hpp`), the linear
algebra kernel (`src/math/linalg.hpp`, `src/math/helpers.hpp`), the LUP
solver of `src/math/equation_system.hpp`, and the finite-difference
Jacobians plus the Newton/Modified-Newton driver of `src/main.cpp`.
The floating element type `T` is modeled by exact rational arithmetic;
`long double` norm accumulators are modeled at the accumulator level
(the value under the final `std::sqrt`), or by an abstract norm valuation
where only comparisons of norms matter. -/

namespace QM

/-- Dense row-major matrix: a shape plus an element buffer.  Mirrors the
fields `m_rows`, `m_cols`, `m_data` of `miv::matrix` in
`src/containers/matrix.hpp`; the buffer is a list of rationals. -/
structure Mat where
  rows : Nat
  cols : Nat
  data : List ℚ
deriving DecidableEq, Repr

/-- Buffer invariant of `miv::matrix`: `m_data.size() == rows * cols`.
Every constructor of the C++ class establishes it. -/
def Mat.wf (m : Mat) : Prop := m.data.length = m.rows * m.cols

/-- Element access `m(r, c)`: the row-major lookup `m_data[r * m_cols + c]`
of `matrix::operator()`.  The C++ bounds check (`linear_index`) makes
out-of-range access an error; every use below is in bounds, and an
out-of-range read defaults to 0 here. -/
def Mat.get (m : Mat) (i j : Nat) : ℚ := m.data.getD (i * m.cols + j) 0

/-- Fresh `r x c` buffer whose cell `(i, j)` holds `f i j`.  This is the shape
of every C++ loop nest below that allocates a buffer and writes every cell
exactly once, each write reading only pre-loop data; such loops are embedded
pointwise through `Mat.ofFn`. -/
def Mat.ofFn (r c : Nat) (f : Nat → Nat → ℚ) : Mat :=
  ⟨r, c, (List.range (r * c)).map (fun idx => f (idx / c) (idx % c))⟩

/-- Constructor `matrix(rows, cols)` (src/containers/matrix.hpp:116-122).
Its buffer is `miv::array(size)` (src/containers/array.hpp:101-102), whose
`new type[size]` default-initializes the elements: for the floating element
types the fresh storage is indeterminate, not zeroed.  The indeterminate
contents are modeled by an explicit `junk` valuation of buffer positions. -/
def Mat.mkRC (r c : Nat) (junk : Nat → ℚ) : Mat :=
  ⟨r, c, (List.range (r * c)).map junk⟩

/-- Message of the `row_permute` length check (src/containers/matrix.hpp:505). -/
def rowPermSizeMsg : String := "row_permute(): perm size must match number of rows"

/-- Message of the `row_permute` range check (src/containers/matrix.hpp:513). -/
def rowPermRangeMsg : String := "row_permute(): row index is out of range"

/-- Message of the `row_permute` duplicate check (src/containers/matrix.hpp:524). -/
def rowPermDupMsg : String := "row_permute(): permutation contains duplicate indices"

/-- Message of the `col_permute` length check (src/containers/matrix.hpp:559). -/
def colPermSizeMsg : String := "col_permute(): perm size must match number of cols"

/-- Message of the `col_permute` range check (src/containers/matrix.hpp:567). -/
def colPermRangeMsg : String := "col_permute(): col index is out of range"

/-- Message of the `col_permute` duplicate check (src/containers/matrix.hpp:578). -/
def colPermDupMsg : String := "col_permute(): permutation contains duplicate indices"

/-- Message of the vector-shape checks in `src/math/helpers.hpp`. -/
def notVectorMsg : String := "Expected a vector (1xN or Nx1)"

/-- Message thrown by `equation_system::lu_decompose_lup` on a failed pivot
(src/math/equation_system.hpp:187). -/
def singularMsg : String := "equation_system::solve_lup(): matrix is singular or near-singular"

/-- Message of `require_squareness` (src/math/helpers.hpp). -/
def notSquareMsg : String := "Given matrix does not meet the requirement of squareness"

/-- Message of the `equation_system` constructor check on `b`
(src/math/equation_system.hpp:103-105). -/
def eqSysBadVectorMsg : String := "equation_system: b must be a vector of length n"

/-- Message of `column_matrix_to_array` (src/main.cpp:93). -/
def expectedColumnMsg : String := "Expected column matrix (n x 1)"

/-- Duplicate scan of `row_permute`/`col_permute`
(src/containers/matrix.hpp:520-529): the quadratic loop reports a duplicate
exactly when some element reappears later in the list. -/
def hasDup : List Nat → Bool
  | [] => false
  | x :: xs => xs.contains x || hasDup xs

/-- Method `matrix::resize` (src/containers/matrix.hpp:462-500): no-op on an
unchanged shape; `clear()` when a dimension is zero; otherwise a fresh
default-initialized buffer (`junk`, see `Mat.mkRC`) receives the old values
on the overlapping `min` region, copied row by row, and the shape fields are
updated. -/
def Mat.resize (m : Mat) (newRows newCols : Nat) (junk : Nat → ℚ) : Mat :=
  if newRows = m.rows ∧ newCols = m.cols then m
  else if newRows = 0 ∨ newCols = 0 then ⟨0, 0, []⟩
  else
    let minR := min newRows m.rows
    let minC := min newCols m.cols
    ⟨newRows, newCols,
      (List.range (newRows * newCols)).map (fun idx =>
        if idx / newCols < minR ∧ idx % newCols < minC then
          m.get (idx / newCols) (idx % newCols)
        else junk idx)⟩

/-- Method `matrix::row_permute` (src/containers/matrix.hpp:503-554):
validate length, range and uniqueness before any data movement, return
unchanged on an empty matrix, else rebuild the buffer with row `r` taken
from old row `perm[r]` (each output cell written exactly once, so the fresh
buffer's indeterminate contents never survive). -/
def Mat.row_permute (m : Mat) (perm : List Nat) : Except String Mat :=
  if perm.length ≠ m.rows then .error rowPermSizeMsg
  else if perm.any (fun p => decide (m.rows ≤ p)) then .error rowPermRangeMsg
  else if hasDup perm then .error rowPermDupMsg
  else if m.rows = 0 ∨ m.cols = 0 then .ok m
  else
    .ok ⟨m.rows, m.cols,
      (List.range m.rows).flatMap (fun r =>
        (List.range m.cols).map (fun c => m.get (perm.getD r 0) c))⟩

/-- Method `matrix::col_permute` (src/containers/matrix.hpp:557-609): same
validation, then `new(r, c) = old(r, perm[c])` for every cell. -/
def Mat.col_permute (m : Mat) (perm : List Nat) : Except String Mat :=
  if perm.length ≠ m.cols then .error colPermSizeMsg
  else if perm.any (fun p => decide (m.cols ≤ p)) then .error colPermRangeMsg
  else if hasDup perm then .error colPermDupMsg
  else if m.rows = 0 ∨ m.cols = 0 then .ok m
  else
    .ok ⟨m.rows, m.cols,
      (List.range m.rows).flatMap (fun r =>
        (List.range m.cols).map (fun c => m.get r (perm.getD c 0)))⟩

/-- State of the matrix object after a `row_permute` call: the permuted
matrix on success, the original matrix when the call throws (all mutation
happens after validation, by committing a fully built fresh buffer). -/
def Mat.row_permute_post (m : Mat) (perm : List Nat) : Mat :=
  match m.row_permute perm with
  | .ok w => w
  | .error _ => m

/-- State of the matrix object after a `col_permute` call (see
`Mat.row_permute_post`). -/
def Mat.col_permute_post (m : Mat) (perm : List Nat) : Mat :=
  match m.col_permute perm with
  | .ok w => w
  | .error _ => m

/-- Specification predicate: `perm` is a true permutation of `0..n-1`
(correct length, all indices in range, no duplicates) — the precondition
documented for `row_permute`/`col_permute` (src/containers/matrix.hpp:72-77). -/
def isPermList (perm : List Nat) (n : Nat) : Prop :=
  perm.length = n ∧ (∀ v ∈ perm, v < n) ∧ perm.Nodup

/-- Function `miv::math::identity` (src/math/linalg.hpp:543-555): fresh
`n x n` matrix, `fill(0)`, then 1 on the diagonal; every cell is written, so
the constructor's indeterminate buffer never survives. -/
def identityM (n : Nat) : Mat := Mat.ofFn n n (fun i j => if i = j then 1 else 0)

/-- Function `miv::math::matmul` (src/math/linalg.hpp:141-167): output
pre-zeroed by `fill`, then the classic triple loop accumulates
`out(i, j) += a(i, t) * b(t, j)` with `t` ascending; cell `(i, j)` therefore
holds the `t`-ascending left fold below.  The `require_mmul_compatible`
check (`a.cols == b.rows`) is a precondition of every use in the claims. -/
def matmul (a b : Mat) : Mat :=
  Mat.ofFn a.rows b.cols (fun i j =>
    (List.range a.cols).foldl (fun acc t => acc + a.get i t * b.get t j) 0)

/-- Accumulator of `miv::math::norm_l2` (src/math/linalg.hpp:356-367): the
fold `acc += v * v` over the buffer.  The function returns
`std::sqrt(acc)` in the `long double` accumulator type `norm_t`; theorems
about the norm take `Real.sqrt` of this exact accumulator. -/
def normL2acc (m : Mat) : ℚ := m.data.foldl (fun acc v => acc + v * v) 0

/-- Helper `miv::math::is_vector` (src/math/helpers.hpp): a 1xN or Nx1 shape. -/
def isVec (v : Mat) : Bool := v.rows == 1 || v.cols == 1

/-- Helper `miv::math::vector_length` (src/math/helpers.hpp).  The C++
function throws on a non-vector; callers below always guard with `isVec`,
and the non-vector branch is left at `v.rows`. -/
def vecLen (v : Mat) : Nat := if v.rows = 1 then v.cols else v.rows

/-- Helper `miv::math::vector_at` (src/math/helpers.hpp): unified element
access for 1xN and Nx1 vectors (non-vector access throws in C++ and is
guarded at every use below). -/
def vecAt (v : Mat) (i : Nat) : ℚ := if v.rows = 1 then v.get 0 i else v.get i 0

/-- Helper `miv::math::permute_vector` (src/math/helpers.hpp): dispatch to
`col_permute` for a row vector, `row_permute` for a column vector, error
otherwise. -/
def permute_vector (v : Mat) (perm : List Nat) : Except String Mat :=
  if v.rows = 1 then v.col_permute perm
  else if v.cols = 1 then v.row_permute perm
  else .error notVectorMsg

/-- Pivot threshold of `equation_system::lu_decompose_lup`
(src/math/equation_system.hpp:164): `eps = 1e-18`. -/
def lupEps : ℚ := 1e-18

/-- Helper `equation_system::build_swap_perm`
(src/math/equation_system.hpp:288-294): `iota`, then
`std::swap(perm[i], perm[j])`. -/
def build_swap_perm (n i j : Nat) : List Nat :=
  let perm := List.range n
  (perm.set i (perm.getD j 0)).set j (perm.getD i 0)

/-- Index action of the swap of `k` and `p` (the permutation built by
`build_swap_perm`). -/
def swapIdx (k p i : Nat) : Nat := if i = k then p else if i = p then k else i

/-- Pivot search loop of `lu_decompose_lup`
(src/math/equation_system.hpp:172-183): scan rows `i = k+1 .. n-1` of column
`k`, starting from `pivot = k`, `max_val = |U(k, k)|`, replacing the pivot
exactly when `|U(i, k)| > max_val` (strict, so ties keep the earlier row).
`fuel` counts the remaining rows (`n - i`). -/
def pivotScanAux (U : Mat) (k : Nat) : Nat → Nat → Nat → ℚ → Nat × ℚ
  | 0, _, pivot, maxVal => (pivot, maxVal)
  | fuel + 1, i, pivot, maxVal =>
    let val := |U.get i k|
    if maxVal < val then pivotScanAux U k fuel (i + 1) i val
    else pivotScanAux U k fuel (i + 1) pivot maxVal

/-- Pivot choice for column `k` over rows `k .. n-1` (see `pivotScanAux`). -/
def pivotScan (U : Mat) (k n : Nat) : Nat × ℚ :=
  pivotScanAux U k (n - (k + 1)) (k + 1) k |U.get k k|

/-- Partial swap of `L` inside the pivot step
(src/math/equation_system.hpp:197-201): `std::swap(L(k, j), L(pivot, j))`
for the already computed columns `j < k` only.  Each cell is written at most
once from pre-loop data, so the loop is embedded pointwise. -/
def swapL (n k pivot : Nat) (L : Mat) : Mat :=
  Mat.ofFn n n (fun i j =>
    if j < k then
      if i = k then L.get pivot j
      else if i = pivot then L.get k j
      else L.get i j
    else L.get i j)

/-- Write of `L` by the elimination loop of the pivot step
(src/math/equation_system.hpp:204-207): `L(i, k) = m = U(i,k)/U(k,k)` for
every row `i > k`; other cells untouched.  Pointwise embedding of the loop
(row `k` of `U`, read here, is never written by the loop). -/
def elimL (n k : Nat) (L U : Mat) : Mat :=
  Mat.ofFn n n (fun i j =>
    if k < i ∧ j = k then U.get i k / U.get k k else L.get i j)

/-- Write of `U` by the elimination loop of the pivot step
(src/math/equation_system.hpp:204-214): for every row `i > k`,
`U(i, k) = 0` and `U(i, j) -= m * U(k, j)` for `j > k`, with
`m = U(i,k)/U(k,k)` computed before the zeroing; rows `<= k` untouched.
Pointwise embedding of the loop: each cell is written once, reading its own
old value and row `k`, which the loop never writes. -/
def elimU (n k : Nat) (U : Mat) : Mat :=
  Mat.ofFn n n (fun i j =>
    if k < i then
      if j = k then 0
      else if k < j then U.get i j - U.get i k / U.get k k * U.get k j
      else U.get i j
    else U.get i j)

/-- Body of one pivot step `k` of `equation_system::lu_decompose_lup`
(src/math/equation_system.hpp:169-215).  After the pivot search and the
singularity check: on `pivot != k`, swap rows `k` and `pivot` of `U` (through
`row_permute` with `build_swap_perm`) and of `b` (through `permute_vector`),
and apply the partial swap `swapL` to `L`; then eliminate below the pivot
(`elimL`, `elimU`).  `n` equals the shape of `L` and `U` at every call. -/
def lupStep (n k : Nat) (L U bw : Mat) : Except String (Mat × Mat × Mat) :=
  let scan := pivotScan U k n
  let pivot := scan.1
  let maxVal := scan.2
  if maxVal ≤ lupEps then .error singularMsg
  else
    let afterSwap : Except String (Mat × Mat × Mat) :=
      if pivot ≠ k then
        let perm := build_swap_perm n k pivot
        match U.row_permute perm with
        | .error e => .error e
        | .ok U1 =>
          match permute_vector bw perm with
          | .error e => .error e
          | .ok bw1 => .ok (swapL n k pivot L, U1, bw1)
      else .ok (L, U, bw)
    match afterSwap with
    | .error e => .error e
    | .ok (L1, U1, bw1) => .ok (elimL n k L1 U1, elimU n k U1, bw1)

/-- Pivot loop `for k = 0 .. n-1` of `lu_decompose_lup`
(src/math/equation_system.hpp:169): `fuel` counts the remaining steps
(`n - k`), so a call with `fuel = n`, `k = 0` runs exactly the steps
`k = 0 .. n-1`. -/
def lupLoopF (n : Nat) : Nat → Nat → Mat → Mat → Mat → Except String (Mat × Mat × Mat)
  | 0, _, L, U, bw => .ok (L, U, bw)
  | fuel + 1, k, L, U, bw =>
    match lupStep n k L U bw with
    | .error e => .error e
    | .ok (L1, U1, bw1) => lupLoopF n fuel (k + 1) L1 U1 bw1

/-- Function `equation_system::lu_decompose_lup`
(src/math/equation_system.hpp:159-218): start from `L = identity(n)`,
`U = A_work`, run the pivot loop; the by-reference mutation of `b_work` is
modeled by returning the permuted right-hand side alongside `L` and `U`. -/
def lu_decompose_lup (Aw bw : Mat) : Except String (Mat × Mat × Mat) :=
  let n := Aw.rows
  lupLoopF n n 0 (identityM n) Aw bw

/-- Values written by the forward-substitution loop of
`equation_system::forward_substitution` (src/math/equation_system.hpp:223-241):
`y(i,0) = b(i) - sum_{j<i} L(i,j) * y(j,0)`, for `i = 0 .. bound-1`; the
list grows by one freshly written cell per iteration and the inner sum reads
only already written cells. -/
def forwardList (L bw : Mat) : Nat → List ℚ
  | 0 => []
  | i + 1 =>
    let ys := forwardList L bw i
    ys ++ [vecAt bw i -
      (List.range i).foldl (fun acc j => acc + L.get i j * ys.getD j 0) 0]

/-- Function `equation_system::forward_substitution`: a fresh `n x 1` matrix
whose every cell is written by the loop (`n = L.rows`). -/
def forward_substitution (L bw : Mat) : Mat :=
  ⟨L.rows, 1, forwardList L bw L.rows⟩

/-- Values written by the backward-substitution loop of
`equation_system::backward_substitution` (src/math/equation_system.hpp:246-267),
processed from row `n-1` down to 0:
`x(row,0) = (y(row) - sum_{j>row} U(row,j) * x(j,0)) / U(row,row)`.
`backwardList U y n cnt` lists the already computed values of rows
`n-cnt .. n-1` in row order. -/
def backwardList (U y : Mat) (n : Nat) : Nat → List ℚ
  | 0 => []
  | cnt + 1 =>
    let xs := backwardList U y n cnt
    let row := n - (cnt + 1)
    ((vecAt y row -
        (List.range' (row + 1) (n - (row + 1))).foldl
          (fun acc j => acc + U.get row j * xs.getD (j - (row + 1)) 0) 0) /
      U.get row row) :: xs

/-- Function `equation_system::backward_substitution`: a fresh `n x 1` matrix
whose every cell is written by the descending loop (`n = U.rows`). -/
def backward_substitution (U y : Mat) : Mat :=
  ⟨U.rows, 1, backwardList U y U.rows U.rows⟩

/-- Class `miv::math::equation_system` (src/math/equation_system.hpp:77-84):
the stored members `A` and `b`. -/
structure EqSys where
  A : Mat
  b : Mat
deriving DecidableEq, Repr

/-- Constructor of `equation_system` (src/math/equation_system.hpp:93-107):
`require_squareness(A)`, then `b` must be a vector (1xN or Nx1) of length
`n = A.rows`. -/
def mkEqSys (A b : Mat) : Except String EqSys :=
  if A.cols ≠ A.rows then .error notSquareMsg
  else if isVec b = true ∧ vecLen b = A.rows then .ok ⟨A, b⟩
  else .error eqSysBadVectorMsg

/-- Method `equation_system::solve_lup` (src/math/equation_system.hpp:140-149):
decompose working copies, then `L y = b` forward and `U x = y` backward.
The in-place permutation of `b_work` inside `lu_decompose_lup` is the third
component returned by `lu_decompose_lup`. -/
def EqSys.solve_lup (sys : EqSys) : Except String Mat :=
  let Awork := sys.A
  let bwork := sys.b
  match lu_decompose_lup Awork bwork with
  | .error e => .error e
  | .ok (L, U, bw) => .ok (backward_substitution U (forward_substitution L bw))

/-- Full effect of a `solve_lup()` call on the system object: the returned
value (or error) together with the members after the call.  The method is
`const` and hands `lu_decompose_lup` the local copies `A_work`, `b_work`
(src/math/equation_system.hpp:142-143); the members are the untouched `sys`. -/
def EqSys.solve_lup_call (sys : EqSys) : Except String Mat × EqSys :=
  let Awork := sys.A
  let bwork := sys.b
  match lu_decompose_lup Awork bwork with
  | .error e => (.error e, sys)
  | .ok (L, U, bw) => (.ok (backward_substitution U (forward_substitution L bw)), sys)

/-- Function `compute_F` (src/main.cpp:107-119): the residual column vector,
`out(i, 0) = functions[i](x)`; every cell of the fresh `n x 1` buffer is
written. -/
def computeF (funcs : List (List ℚ → ℚ)) (x : List ℚ) : Mat :=
  ⟨funcs.length, 1, funcs.map (fun f => f x)⟩

/-- Instrumented `compute_F`: the residual vector plus the number of
residual-vector evaluations this call performs (one). -/
def computeFCounted (funcs : List (List ℚ → ℚ)) (x : List ℚ) : Mat × Nat :=
  (computeF funcs x, 1)

/-- Column write `J(i, j) = vals i` for all `i` (the inner row loop of the
Jacobian builders, src/main.cpp:143-146; each cell written once). -/
def Mat.setCol (m : Mat) (j : Nat) (vals : Nat → ℚ) : Mat :=
  Mat.ofFn m.rows m.cols (fun i c => if c = j then vals i else m.get i c)

/-- Function `build_jacobian_two_point` (src/main.cpp:124-150), with a call
counter threaded through every `compute_F` call site: evaluate `F(x)` once
before the column loop; for each column `j`, step
`h = sqrt(machine epsilon) * (1 + |x[j]|)` (the value `sqrt(eps)` is the
abstract parameter `sqrtME`), evaluate `F` at `x` with `x[j] += h`, and
write column `j` as the forward difference quotient.  `J(n, n)` starts as a
default-initialized buffer (`junk`) and every cell is written by the loop. -/
def buildJacTwoPointC (sqrtME : ℚ) (junk : Nat → ℚ)
    (funcs : List (List ℚ → ℚ)) (x : List ℚ) : Mat × Nat :=
  let n := funcs.length
  let fc := computeFCounted funcs x
  let fx := fc.1
  (List.range n).foldl
    (fun Jc j =>
      let h := sqrtME * (1 + |x.getD j 0|)
      let xPlus := x.set j (x.getD j 0 + h)
      let fpc := computeFCounted funcs xPlus
      (Jc.1.setCol j (fun i => (fpc.1.get i 0 - fx.get i 0) / h), Jc.2 + fpc.2))
    (Mat.mkRC n n junk, fc.2)

/-- Function `build_jacobian_two_point` (src/main.cpp:124-150), result only. -/
def build_jacobian_two_point (sqrtME : ℚ) (junk : Nat → ℚ)
    (funcs : List (List ℚ → ℚ)) (x : List ℚ) : Mat :=
  (buildJacTwoPointC sqrtME junk funcs x).1

/-- Function `build_jacobian_three_point` (src/main.cpp:155-183): for each
column `j`, the same step `h`, evaluations at `x[j] + h` and `x[j] - h`, and
the central difference quotient over `2 h`. -/
def build_jacobian_three_point (sqrtME : ℚ) (junk : Nat → ℚ)
    (funcs : List (List ℚ → ℚ)) (x : List ℚ) : Mat :=
  let n := funcs.length
  (List.range n).foldl
    (fun J j =>
      let h := sqrtME * (1 + |x.getD j 0|)
      let xPlus := x.set j (x.getD j 0 + h)
      let xMinus := x.set j (x.getD j 0 - h)
      let fPlus := computeF funcs xPlus
      let fMinus := computeF funcs xMinus
      J.setCol j (fun i => (fPlus.get i 0 - fMinus.get i 0) / (2 * h)))
    (Mat.mkRC n n junk)

/-- Function `column_matrix_to_array` (src/main.cpp:88-102). -/
def column_matrix_to_array (v : Mat) : Except String (List ℚ) :=
  if v.cols ≠ 1 then .error expectedColumnMsg
  else .ok ((List.range v.rows).map (fun i => v.get i 0))

/-- Function `solve_step` (src/main.cpp:399-411): build `b = -F(x)` (fresh
`n x 1` buffer, every cell written), construct the equation system (its
constructor validates), solve by LUP and convert the column back to an
array. -/
def solve_step (J fx : Mat) : Except String (List ℚ) :=
  let b := Mat.ofFn fx.rows 1 (fun i _ => -(fx.get i 0))
  match mkEqSys J b with
  | .error e => .error e
  | .ok sys =>
    match sys.solve_lup with
    | .error e => .error e
    | .ok xm => column_matrix_to_array xm

/-- Enum `Method` (src/main.cpp:32-36). -/
inductive Method where
  | newton
  | modifiedNewton
deriving DecidableEq, Repr

/-- Enum `JacobianMode` (src/main.cpp:38-42). -/
inductive JacobianMode where
  | numeric
  | manual
deriving DecidableEq, Repr

/-- Enum `NumericFormula` (src/main.cpp:44-48). -/
inductive NumericFormula where
  | twoPoint
  | threePoint
deriving DecidableEq, Repr

/-- Configuration a run of the interactive driver collects before iterating
(src/main.cpp:461-543): method, Jacobian source, numeric formula, damping
factor, tolerances, iteration cap and the manually entered Jacobian. -/
structure NewtonCfg where
  method : Method
  jmode : JacobianMode
  formula : NumericFormula
  lambda : ℚ
  epsF : ℚ
  epsX : ℚ
  maxIter : Nat
  Jmanual : Mat
deriving Repr

/-- Dispatch on the numeric formula (src/main.cpp:550-552 and 581-583). -/
def buildNumericJacobian (formula : NumericFormula) (sqrtME : ℚ) (junk : Nat → ℚ)
    (funcs : List (List ℚ → ℚ)) (x : List ℚ) : Mat :=
  match formula with
  | .twoPoint => build_jacobian_two_point sqrtME junk funcs x
  | .threePoint => build_jacobian_three_point sqrtME junk funcs x

/-- Per-iteration Jacobian acquisition (src/main.cpp:576-593): plain Newton
recomputes numerically at the current `x` or reuses the manual matrix;
Modified Newton always uses the frozen matrix computed before the loop. -/
def selectJacobian (cfg : NewtonCfg) (sqrtME : ℚ) (junk : Nat → ℚ)
    (funcs : List (List ℚ → ℚ)) (Jfrozen : Mat) (x : List ℚ) : Mat :=
  match cfg.method with
  | .newton =>
    match cfg.jmode with
    | .numeric => buildNumericJacobian cfg.formula sqrtME junk funcs x
    | .manual => cfg.Jmanual
  | .modifiedNewton => Jfrozen

/-- Damped update `x[i] += lambda * step[i]` (src/main.cpp:610-613). -/
def dampedUpdate (lambda : ℚ) (x step : List ℚ) : List ℚ :=
  List.zipWith (fun xi si => xi + lambda * si) x step

/-- Record of one iteration that reached the linear solve: the index `k`,
the iterate `x = x_k`, the Jacobian `J` passed to `solve_step`, the computed
step `s_k`, whether the damped update was applied (`updated = false` means
the step criterion fired and the loop stopped before updating), and the
iterate after the iteration. -/
structure IterEntry where
  k : Nat
  x : List ℚ
  J : Mat
  step : List ℚ
  updated : Bool
  xNext : List ℚ
deriving Repr

/-- Outcome of a driver run (src/main.cpp:616-623): convergence flag, final
iterate, `iter_done`, plus the trace of iterations that reached the solve. -/
structure RunResult where
  converged : Bool
  x : List ℚ
  iters : Nat
  trace : List IterEntry
deriving Repr

/-- Iteration loop of `main` (src/main.cpp:563-614).  Each pass: evaluate
`F(x_k)` and stop as converged when `norm(F) < eps_F`; otherwise acquire the
Jacobian, solve `J s = -F`, and stop as converged when
`norm(s) < eps_X * (1 + norm(x_k))` WITHOUT applying the update; otherwise
apply the damped update and continue.  `fuel` counts the remaining
iterations (`max_iter - k`); running out of fuel is the non-converged exit
with `iter_done = k` (equal to `max_iter` when at least one pass ran).
`normFn` stands for the `long double` norm `norm_l2` applied to the listed
buffer; the loop consumes norms only through comparisons. -/
def newtonLoop (normFn : List ℚ → ℚ) (sqrtME : ℚ) (junk : Nat → ℚ)
    (funcs : List (List ℚ → ℚ)) (cfg : NewtonCfg) (Jfrozen : Mat) :
    Nat → Nat → List ℚ → List IterEntry → Except String RunResult
  | 0, k, x, tr => .ok ⟨false, x, k, tr⟩
  | fuel + 1, k, x, tr =>
    let fx := computeF funcs x
    let fxNorm := normFn fx.data
    if fxNorm < cfg.epsF then .ok ⟨true, x, k + 1, tr⟩
    else
      let J := selectJacobian cfg sqrtME junk funcs Jfrozen x
      match solve_step J fx with
      | .error e => .error e
      | .ok step =>
        let stepNorm := normFn step
        let xNorm := normFn x
        if stepNorm < cfg.epsX * (1 + xNorm) then
          .ok ⟨true, x, k + 1, tr ++ [⟨k, x, J, step, false, x⟩]⟩
        else
          let xNext := dampedUpdate cfg.lambda x step
          newtonLoop normFn sqrtME junk funcs cfg Jfrozen fuel (k + 1) xNext
            (tr ++ [⟨k, x, J, step, true, xNext⟩])

/-- One driver run (src/main.cpp:545-614): for Modified Newton the frozen
Jacobian is computed once from `x0` before the loop (numerically, or the
manual matrix); for plain Newton `J_frozen` stays the default-constructed
empty matrix.  Then the iteration loop runs with `fuel = max_iter`. -/
def newtonRun (normFn : List ℚ → ℚ) (sqrtME : ℚ) (junk : Nat → ℚ)
    (funcs : List (List ℚ → ℚ)) (cfg : NewtonCfg) (x0 : List ℚ) :
    Except String RunResult :=
  let Jfrozen :=
    match cfg.method with
    | .modifiedNewton =>
      match cfg.jmode with
      | .numeric => buildNumericJacobian cfg.formula sqrtME junk funcs x0
      | .manual => cfg.Jmanual
    | .newton => ⟨0, 0, []⟩
  newtonLoop normFn sqrtME junk funcs cfg Jfrozen cfg.maxIter 0 x0 []

/-- Exact value of the L2 norm on one-element buffers:
`sqrt(x * x) = |x|`, used to instantiate `normFn` in concrete
one-dimensional runs. -/
def absHead (v : List ℚ) : ℚ := |v.getD 0 0|

/-- The `J_frozen` matrix set up before the iteration loop
(src/main.cpp:545-558), named for reuse in statements about the loop. -/
def newtonJfrozen (sqrtME : ℚ) (junk : Nat → ℚ) (funcs : List (List ℚ → ℚ))
    (cfg : NewtonCfg) (x0 : List ℚ) : Mat :=
  match cfg.method with
  | .modifiedNewton =>
    match cfg.jmode with
    | .numeric => buildNumericJacobian cfg.formula sqrtME junk funcs x0
    | .manual => cfg.Jmanual
  | .newton => ⟨0, 0, []⟩

/-- Entry `(i, j)` of the product `L * U` restricted to size `n`, the
quantity tracked by the decomposition invariant `L * U = P * A`. -/
def luE (n : Nat) (L U : Mat) (i j : Nat) : ℚ :=
  ∑ t ∈ Finset.range n, L.get i t * U.get t j

/-- Specification predicate for the singularity condition: running the first
`d` pivot steps (some `d < n`) succeeds and leaves a working matrix whose
chosen pivot for column `d` has magnitude at most `1e-18`. -/
def reachesSmallPivot (n : Nat) (L U bw : Mat) : Prop :=
  ∃ d, d < n ∧ ∃ L2 U2 bw2, lupLoopF n d 0 L U bw = .ok (L2, U2, bw2) ∧
    (pivotScan U2 d n).2 ≤ lupEps

/-- Bijection of `0 .. n-1` presented as a plain index map (how the row
permutation accumulated by the pivoting is tracked in the proofs). -/
def BijOn (f : Nat → Nat) (n : Nat) : Prop :=
  (∀ i, i < n → f i < n) ∧ (∀ i j, i < n → j < n → f i = f j → i = j) ∧
  (∀ r, r < n → ∃ i, i < n ∧ f i = r)

/-- Vector shape of the right-hand side: `1 x n` row or `n x 1` column. -/
def VecShape (n rb cb : Nat) : Prop := (rb = 1 ∧ cb = n) ∨ (cb = 1 ∧ rb = n)

/-- Shape invariant of the decomposition loop state: `L` and `U` stay
`n x n` well-formed buffers and the right-hand side keeps the shape
`(rb, cb)` of the original vector `b`. -/
def ShapeInv (n rb cb : Nat) (L U bw : Mat) : Prop :=
  L.rows = n ∧ L.cols = n ∧ L.wf ∧ U.rows = n ∧ U.cols = n ∧ U.wf ∧
  bw.rows = rb ∧ bw.cols = cb ∧ bw.wf

/-- Algebraic invariant of the decomposition loop after the pivot steps
`0 .. k-1`: some row bijection `f` satisfies `L * U = A` with rows permuted
by `f` and `bw = b0` permuted by `f`; `L` is unit lower triangular with its
not-yet-computed columns `>= k` still zero below the diagonal; `U` is zero
below the diagonal in the already eliminated columns `< k`; and the already
fixed pivots `U(j, j)`, `j < k`, are nonzero. -/
def LUInv (n k : Nat) (A b0 L U bw : Mat) : Prop :=
  ∃ f : Nat → Nat, BijOn f n ∧
    (∀ i j, i < n → j < n → luE n L U i j = A.get (f i) j) ∧
    (∀ i, i < n → vecAt bw i = vecAt b0 (f i)) ∧
    (∀ i, i < n → L.get i i = 1) ∧
    (∀ i j, i < n → j < n → i < j → L.get i j = 0) ∧
    (∀ i j, i < n → j < n → j < i → k ≤ j → L.get i j = 0) ∧
    (∀ i j, i < n → j < n → j < i → j < k → U.get i j = 0) ∧
    (∀ j, j < k → U.get j j ≠ 0)

/- Basic access lemmas for the container embedding. -/

theorem getD_map_range {α : Type} (f : Nat → α) (d : α) {n i : Nat} (h : i < n) :
    ((List.range n).map f).getD i d = f i := by
  simp [List.getD_eq_getElem?_getD, List.getElem?_map, List.getElem?_range, h]

theorem flatten_getD (c : Nat) :
    ∀ (L : List (List ℚ)) (i j : Nat), (∀ l ∈ L, l.length = c) → i < L.length → j < c →
      L.flatten.getD (i * c + j) 0 = (L.getD i []).getD j 0 := by
  intro L
  induction L with
  | nil => intro i j _ hi _; simp at hi
  | cons a L ih =>
    intro i j hlen hi hj
    match i with
    | 0 =>
      have ha : a.length = c := hlen a (by simp)
      have hj' : j < a.length := by omega
      simp only [List.flatten_cons, Nat.zero_mul, Nat.zero_add, List.getD_cons_zero]
      exact List.getD_append a L.flatten 0 j hj'
    | i + 1 =>
      have ha : a.length = c := hlen a (by simp)
      have hidx : a.length ≤ (i + 1) * c + j := by
        have h1 : (i + 1) * c = i * c + c := Nat.succ_mul i c
        omega
      simp only [List.flatten_cons, List.getD_cons_succ]
      rw [List.getD_append_right a L.flatten 0 _ hidx]
      have harith : (i + 1) * c + j - a.length = i * c + j := by
        rw [ha]; rw [Nat.succ_mul]; omega
      rw [harith]
      exact ih i j (fun l hl => hlen l (by simp [hl])) (by simpa using hi) hj

theorem flatMap_range_getD (g : Nat → Nat → ℚ) {r c i j : Nat} (hi : i < r) (hj : j < c) :
    ((List.range r).flatMap (fun a => (List.range c).map (g a))).getD (i * c + j) 0 = g i j := by
  have h1 : (List.range r).flatMap (fun a => (List.range c).map (g a)) =
      ((List.range r).map (fun a => (List.range c).map (g a))).flatten := by
    simp [List.flatMap_def]
  rw [h1, flatten_getD c _ i j ?_ ?_ hj]
  · rw [getD_map_range _ _ hi, getD_map_range _ _ hj]
  · intro l hl
    simp only [List.mem_map] at hl
    obtain ⟨a, _, rfl⟩ := hl
    simp
  · simpa using hi

theorem flatMap_range_length (g : Nat → Nat → ℚ) (r c : Nat) :
    ((List.range r).flatMap (fun a => (List.range c).map (g a))).length = r * c := by
  simp [List.length_flatMap, Function.comp]
  induction r with
  | zero => simp
  | succ r ih => simp [List.range_succ, ih, Nat.succ_mul]

theorem Mat.get_ofFn (r c : Nat) (f : Nat → Nat → ℚ) {i j : Nat} (hi : i < r) (hj : j < c) :
    (Mat.ofFn r c f).get i j = f i j := by
  have hc : 0 < c := Nat.pos_of_ne_zero (by omega)
  have hidx : i * c + j < r * c := by
    calc i * c + j < i * c + c := by omega
    _ = (i + 1) * c := by rw [Nat.succ_mul]
    _ ≤ r * c := Nat.mul_le_mul_right c hi
  show ((List.range (r * c)).map _).getD (i * c + j) 0 = f i j
  rw [getD_map_range _ _ hidx]
  have hdiv : (i * c + j) / c = i := by
    rw [Nat.add_comm, Nat.add_mul_div_right j i hc, Nat.div_eq_of_lt hj, Nat.zero_add]
  have hmod : (i * c + j) % c = j := by
    rw [Nat.add_comm, Nat.add_mul_mod_self_right, Nat.mod_eq_of_lt hj]
  rw [hdiv, hmod]

theorem Mat.ofFn_rows (r c : Nat) (f : Nat → Nat → ℚ) : (Mat.ofFn r c f).rows = r := rfl

theorem Mat.ofFn_cols (r c : Nat) (f : Nat → Nat → ℚ) : (Mat.ofFn r c f).cols = c := rfl

theorem Mat.ofFn_wf (r c : Nat) (f : Nat → Nat → ℚ) : (Mat.ofFn r c f).wf := by
  show ((List.range (r * c)).map _).length = r * c
  simp

theorem Mat.get_mkRC (r c : Nat) (junk : Nat → ℚ) {i j : Nat} (hi : i < r) (hj : j < c) :
    (Mat.mkRC r c junk).get i j = junk (i * c + j) := by
  have hidx : i * c + j < r * c := by
    calc i * c + j < i * c + c := by omega
    _ = (i + 1) * c := by rw [Nat.succ_mul]
    _ ≤ r * c := Nat.mul_le_mul_right c hi
  show ((List.range (r * c)).map junk).getD (i * c + j) 0 = junk (i * c + j)
  rw [getD_map_range _ _ hidx]

/- Lemmas about the permutation operations and resize. -/

theorem hasDup_eq_false_iff (l : List Nat) : hasDup l = false ↔ l.Nodup := by
  induction l with
  | nil => simp [hasDup]
  | cons x xs ih =>
    simp only [hasDup, Bool.or_eq_false_iff, List.nodup_cons, ih]
    constructor
    · intro ⟨h1, h2⟩
      refine ⟨fun hmem => ?_, h2⟩
      have hmem2 : List.elem x xs = true := List.elem_iff.mpr hmem
      simp [List.contains] at h1
      exact absurd hmem2 (by simp [h1])
    · intro ⟨h1, h2⟩
      refine ⟨?_, h2⟩
      have : ¬ xs.contains x = true := by
        rw [List.elem_iff]
        exact h1
      simpa using this

theorem any_ge_eq_false_iff (l : List Nat) (n : Nat) :
    l.any (fun p => decide (n ≤ p)) = false ↔ ∀ v ∈ l, v < n := by
  simp [List.any_eq_false]

theorem Mat.row_permute_valid (m : Mat) (perm : List Nat)
    (hv : isPermList perm m.rows) :
    ∃ w, m.row_permute perm = .ok w ∧ w.rows = m.rows ∧ w.cols = m.cols ∧
      (m.wf → w.wf) ∧
      (∀ i j, i < m.rows → j < m.cols → w.get i j = m.get (perm.getD i 0) j) := by
  obtain ⟨hlen, hrange, hnodup⟩ := hv
  unfold Mat.row_permute
  rw [if_neg (by omega),
      if_neg (by rw [Bool.not_eq_true, any_ge_eq_false_iff]; exact hrange),
      if_neg (by rw [Bool.not_eq_true, hasDup_eq_false_iff]; exact hnodup)]
  by_cases hz : m.rows = 0 ∨ m.cols = 0
  · rw [if_pos hz]
    exact ⟨m, rfl, rfl, rfl, fun h => h, by intro i j hi hj; omega⟩
  · rw [if_neg hz]
    push_neg at hz
    refine ⟨_, rfl, rfl, rfl, fun _ => ?_, fun i j hi hj => ?_⟩
    · show (_ : List ℚ).length = m.rows * m.cols
      exact flatMap_range_length _ m.rows m.cols
    · show (_ : List ℚ).getD (i * m.cols + j) 0 = _
      exact flatMap_range_getD (fun a b => m.get (perm.getD a 0) b) hi hj

theorem Mat.col_permute_valid (m : Mat) (perm : List Nat)
    (hv : isPermList perm m.cols) :
    ∃ w, m.col_permute perm = .ok w ∧ w.rows = m.rows ∧ w.cols = m.cols ∧
      (m.wf → w.wf) ∧
      (∀ i j, i < m.rows → j < m.cols → w.get i j = m.get i (perm.getD j 0)) := by
  obtain ⟨hlen, hrange, hnodup⟩ := hv
  unfold Mat.col_permute
  rw [if_neg (by omega),
      if_neg (by rw [Bool.not_eq_true, any_ge_eq_false_iff]; exact hrange),
      if_neg (by rw [Bool.not_eq_true, hasDup_eq_false_iff]; exact hnodup)]
  by_cases hz : m.rows = 0 ∨ m.cols = 0
  · rw [if_pos hz]
    exact ⟨m, rfl, rfl, rfl, fun h => h, by intro i j hi hj; omega⟩
  · rw [if_neg hz]
    push_neg at hz
    refine ⟨_, rfl, rfl, rfl, fun _ => ?_, fun i j hi hj => ?_⟩
    · show (_ : List ℚ).length = m.rows * m.cols
      exact flatMap_range_length _ m.rows m.cols
    · show (_ : List ℚ).getD (i * m.cols + j) 0 = _
      exact flatMap_range_getD (fun a b => m.get a (perm.getD b 0)) hi hj

theorem Mat.row_permute_invalid (m : Mat) (perm : List Nat)
    (hv : ¬ isPermList perm m.rows) :
    ∃ e, m.row_permute perm = .error e := by
  unfold Mat.row_permute
  by_cases h1 : perm.length ≠ m.rows
  · rw [if_pos h1]; exact ⟨_, rfl⟩
  · rw [if_neg h1]
    by_cases h2 : perm.any (fun p => decide (m.rows ≤ p)) = true
    · rw [if_pos h2]; exact ⟨_, rfl⟩
    · rw [if_neg h2]
      by_cases h3 : hasDup perm = true
      · rw [if_pos h3]; exact ⟨_, rfl⟩
      · exfalso
        apply hv
        push_neg at h1
        rw [Bool.not_eq_true, any_ge_eq_false_iff] at h2
        rw [Bool.not_eq_true, hasDup_eq_false_iff] at h3
        exact ⟨h1, h2, h3⟩

theorem Mat.col_permute_invalid (m : Mat) (perm : List Nat)
    (hv : ¬ isPermList perm m.cols) :
    ∃ e, m.col_permute perm = .error e := by
  unfold Mat.col_permute
  by_cases h1 : perm.length ≠ m.cols
  · rw [if_pos h1]; exact ⟨_, rfl⟩
  · rw [if_neg h1]
    by_cases h2 : perm.any (fun p => decide (m.cols ≤ p)) = true
    · rw [if_pos h2]; exact ⟨_, rfl⟩
    · rw [if_neg h2]
      by_cases h3 : hasDup perm = true
      · rw [if_pos h3]; exact ⟨_, rfl⟩
      · exfalso
        apply hv
        push_neg at h1
        rw [Bool.not_eq_true, any_ge_eq_false_iff] at h2
        rw [Bool.not_eq_true, hasDup_eq_false_iff] at h3
        exact ⟨h1, h2, h3⟩

theorem Mat.row_permute_ok_isPerm (m : Mat) (perm : List Nat) (w : Mat)
    (hw : m.row_permute perm = .ok w) : isPermList perm m.rows := by
  by_contra hv
  obtain ⟨e, he⟩ := m.row_permute_invalid perm hv
  rw [he] at hw
  exact Except.noConfusion hw

theorem Mat.col_permute_ok_isPerm (m : Mat) (perm : List Nat) (w : Mat)
    (hw : m.col_permute perm = .ok w) : isPermList perm m.cols := by
  by_contra hv
  obtain ⟨e, he⟩ := m.col_permute_invalid perm hv
  rw [he] at hw
  exact Except.noConfusion hw

theorem flatMap_range_get_data (m : Mat) (hwf : m.wf) (hc : 0 < m.cols) :
    (List.range m.rows).flatMap (fun r => (List.range m.cols).map (fun c => m.get r c))
      = m.data := by
  apply List.ext_getElem
  · rw [flatMap_range_length]; exact hwf.symm
  · intro idx h1 h2
    have hlen : idx < m.rows * m.cols := by rwa [flatMap_range_length] at h1
    have hi : idx / m.cols < m.rows := Nat.div_lt_of_lt_mul (by rwa [Nat.mul_comm] at hlen)
    have hj : idx % m.cols < m.cols := Nat.mod_lt idx hc
    have hidx : idx = (idx / m.cols) * m.cols + idx % m.cols := by
      rw [Nat.mul_comm]; exact (Nat.div_add_mod idx m.cols).symm
    have hgd : ((List.range m.rows).flatMap
        (fun r => (List.range m.cols).map (fun c => m.get r c))).getD idx 0
        = m.data.getD idx 0 := by
      conv_lhs => rw [hidx]
      rw [flatMap_range_getD (fun a b => m.get a b) hi hj]
      show m.data.getD _ 0 = _
      rw [← hidx]
    rw [← List.getD_eq_getElem _ 0 h1, ← List.getD_eq_getElem _ 0 h2]
    exact hgd

theorem isPermList_range (n : Nat) : isPermList (List.range n) n :=
  ⟨List.length_range n, fun v hv => List.mem_range.mp hv, List.nodup_range n⟩

theorem Mat.row_permute_id (m : Mat) (hwf : m.wf) :
    m.row_permute (List.range m.rows) = .ok m := by
  unfold Mat.row_permute
  have hv := isPermList_range m.rows
  obtain ⟨hlen, hrange, hnodup⟩ := hv
  rw [if_neg (by omega),
      if_neg (by rw [Bool.not_eq_true, any_ge_eq_false_iff]; exact hrange),
      if_neg (by rw [Bool.not_eq_true, hasDup_eq_false_iff]; exact hnodup)]
  by_cases hz : m.rows = 0 ∨ m.cols = 0
  · rw [if_pos hz]
  · rw [if_neg hz]
    push_neg at hz
    have hdata : (List.range m.rows).flatMap
        (fun r => (List.range m.cols).map (fun c => m.get ((List.range m.rows).getD r 0) c))
        = m.data := by
      rw [← flatMap_range_get_data m hwf (Nat.pos_of_ne_zero hz.2)]
      apply List.flatMap_congr
      intro a ha
      have ha' : a < (List.range m.rows).length := by
        rw [List.length_range]; exact List.mem_range.mp ha
      rw [List.getD_eq_getElem _ 0 ha', List.getElem_range]
    rw [hdata]

theorem Mat.col_permute_id (m : Mat) (hwf : m.wf) :
    m.col_permute (List.range m.cols) = .ok m := by
  unfold Mat.col_permute
  obtain ⟨hlen, hrange, hnodup⟩ := isPermList_range m.cols
  rw [if_neg (by omega),
      if_neg (by rw [Bool.not_eq_true, any_ge_eq_false_iff]; exact hrange),
      if_neg (by rw [Bool.not_eq_true, hasDup_eq_false_iff]; exact hnodup)]
  by_cases hz : m.rows = 0 ∨ m.cols = 0
  · rw [if_pos hz]
  · rw [if_neg hz]
    push_neg at hz
    have hdata : (List.range m.rows).flatMap
        (fun r => (List.range m.cols).map (fun c => m.get r ((List.range m.cols).getD c 0)))
        = m.data := by
      rw [← flatMap_range_get_data m hwf (Nat.pos_of_ne_zero hz.2)]
      apply List.flatMap_congr
      intro a _
      apply List.map_congr_left
      intro c hc
      have hc' : c < (List.range m.cols).length := by
        rw [List.length_range]; exact List.mem_range.mp hc
      rw [List.getD_eq_getElem _ 0 hc', List.getElem_range]
    rw [hdata]

theorem Mat.row_permute_post_invalid (m : Mat) (perm : List Nat)
    (hv : ¬ isPermList perm m.rows) : m.row_permute_post perm = m := by
  obtain ⟨e, he⟩ := m.row_permute_invalid perm hv
  unfold Mat.row_permute_post
  rw [he]

theorem Mat.col_permute_post_invalid (m : Mat) (perm : List Nat)
    (hv : ¬ isPermList perm m.cols) : m.col_permute_post perm = m := by
  obtain ⟨e, he⟩ := m.col_permute_invalid perm hv
  unfold Mat.col_permute_post
  rw [he]

/- Resize characterization. -/

theorem Mat.resize_rows (m : Mat) {nr nc : Nat} (junk : Nat → ℚ)
    (hr : 0 < nr) (hc : 0 < nc) : (m.resize nr nc junk).rows = nr := by
  unfold Mat.resize
  by_cases h1 : nr = m.rows ∧ nc = m.cols
  · rw [if_pos h1]; omega
  · rw [if_neg h1, if_neg (by omega)]

theorem Mat.resize_cols (m : Mat) {nr nc : Nat} (junk : Nat → ℚ)
    (hr : 0 < nr) (hc : 0 < nc) : (m.resize nr nc junk).cols = nc := by
  unfold Mat.resize
  by_cases h1 : nr = m.rows ∧ nc = m.cols
  · rw [if_pos h1]; omega
  · rw [if_neg h1, if_neg (by omega)]

theorem Mat.resize_get (m : Mat) {nr nc i j : Nat} (junk : Nat → ℚ)
    (hi : i < nr) (hj : j < nc) :
    (m.resize nr nc junk).get i j =
      if i < min nr m.rows ∧ j < min nc m.cols then m.get i j
      else junk (i * nc + j) := by
  unfold Mat.resize
  by_cases h1 : nr = m.rows ∧ nc = m.cols
  · rw [if_pos h1]
    rw [if_pos (by omega)]
  · rw [if_neg h1, if_neg (by omega)]
    have hidx : i * nc + j < nr * nc := by
      calc i * nc + j < i * nc + nc := by omega
      _ = (i + 1) * nc := by rw [Nat.succ_mul]
      _ ≤ nr * nc := Nat.mul_le_mul_right nc hi
    show ((List.range (nr * nc)).map _).getD (i * nc + j) 0 = _
    rw [getD_map_range _ _ hidx]
    have hdiv : (i * nc + j) / nc = i := by
      rw [Nat.add_comm, Nat.add_mul_div_right j i (by omega), Nat.div_eq_of_lt hj,
        Nat.zero_add]
    have hmod : (i * nc + j) % nc = j := by
      rw [Nat.add_comm, Nat.add_mul_mod_self_right, Nat.mod_eq_of_lt hj]
    rw [hdiv, hmod]

/- Fold-to-sum bridges and entry formulas for the kernel operations. -/

theorem foldl_add_eq_sum {α : Type} (f : α → ℚ) (l : List α) (a : ℚ) :
    l.foldl (fun acc x => acc + f x) a = a + (l.map f).sum := by
  induction l generalizing a with
  | nil => simp
  | cons x xs ih => simp [ih, add_assoc]

theorem range_map_sum (f : Nat → ℚ) (n : Nat) :
    ((List.range n).map f).sum = ∑ t ∈ Finset.range n, f t := by
  induction n with
  | zero => simp
  | succ n ih => rw [List.range_succ, Finset.sum_range_succ, List.map_append, List.sum_append, ih]; simp

theorem matmul_get (a b : Mat) {i j : Nat} (hi : i < a.rows) (hj : j < b.cols) :
    (matmul a b).get i j = ∑ t ∈ Finset.range a.cols, a.get i t * b.get t j := by
  unfold matmul
  rw [Mat.get_ofFn _ _ _ hi hj, foldl_add_eq_sum (fun t => a.get i t * b.get t j), zero_add,
    range_map_sum]

theorem matmul_rows (a b : Mat) : (matmul a b).rows = a.rows := rfl

theorem matmul_cols (a b : Mat) : (matmul a b).cols = b.cols := rfl

theorem identityM_get {n i j : Nat} (hi : i < n) (hj : j < n) :
    (identityM n).get i j = if i = j then 1 else 0 :=
  Mat.get_ofFn n n _ hi hj

theorem identityM_rows (n : Nat) : (identityM n).rows = n := rfl

theorem identityM_cols (n : Nat) : (identityM n).cols = n := rfl

theorem identityM_wf (n : Nat) : (identityM n).wf := Mat.ofFn_wf n n _

theorem normL2acc_eq_sum (m : Mat) :
    normL2acc m = (m.data.map (fun v => v * v)).sum := by
  unfold normL2acc
  rw [foldl_add_eq_sum (fun v => v * v) m.data 0, zero_add]

theorem normL2acc_nonneg (m : Mat) : 0 ≤ normL2acc m := by
  rw [normL2acc_eq_sum]
  apply List.sum_nonneg
  intro x hx
  simp only [List.mem_map] at hx
  obtain ⟨v, _, rfl⟩ := hx
  exact mul_self_nonneg v

/- The swap permutation used by the pivoting. -/

theorem swapIdx_lt {k p n : Nat} (hk : k < n) (hp : p < n) {i : Nat} (hi : i < n) :
    swapIdx k p i < n := by
  unfold swapIdx; split_ifs <;> omega

theorem swapIdx_invol (k p i : Nat) : swapIdx k p (swapIdx k p i) = i := by
  unfold swapIdx; split_ifs <;> omega

theorem swapIdx_of_ne {k p i : Nat} (h1 : i ≠ k) (h2 : i ≠ p) : swapIdx k p i = i := by
  unfold swapIdx; split_ifs <;> omega

theorem swapIdx_k (k p : Nat) : swapIdx k p k = p := by
  unfold swapIdx; split_ifs <;> omega

theorem swapIdx_p (k p : Nat) : swapIdx k p p = k := by
  unfold swapIdx; split_ifs <;> omega

theorem build_swap_perm_eq_map {n k p : Nat} (hk : k < n) (hp : p < n) :
    build_swap_perm n k p = (List.range n).map (swapIdx k p) := by
  show ((List.range n).set k ((List.range n).getD p 0)).set p ((List.range n).getD k 0) = _
  have hgp : (List.range n).getD p 0 = p := by
    rw [List.getD_eq_getElem _ 0 (by simpa using hp), List.getElem_range]
  have hgk : (List.range n).getD k 0 = k := by
    rw [List.getD_eq_getElem _ 0 (by simpa using hk), List.getElem_range]
  rw [hgp, hgk]
  apply List.ext_getElem
  · simp
  · intro idx h1 h2
    have hidx : idx < n := by simpa using h2
    rw [List.getElem_map, List.getElem_range]
    rw [List.getElem_set, List.getElem_set, List.getElem_range]
    unfold swapIdx
    split_ifs <;> omega

theorem build_swap_perm_isPerm {n k p : Nat} (hk : k < n) (hp : p < n) :
    isPermList (build_swap_perm n k p) n := by
  rw [build_swap_perm_eq_map hk hp]
  refine ⟨by simp, ?_, ?_⟩
  · intro v hv
    simp only [List.mem_map, List.mem_range] at hv
    obtain ⟨i, hi, rfl⟩ := hv
    exact swapIdx_lt hk hp hi
  · refine List.Nodup.map ?_ (List.nodup_range n)
    intro a b h
    have h2 := congrArg (swapIdx k p) h
    rwa [swapIdx_invol, swapIdx_invol] at h2

theorem build_swap_perm_getD {n k p i : Nat} (hk : k < n) (hp : p < n) (hi : i < n) :
    (build_swap_perm n k p).getD i 0 = swapIdx k p i := by
  rw [build_swap_perm_eq_map hk hp, getD_map_range _ _ hi]

theorem row_permute_swap (U : Mat) {n k p : Nat} (hU : U.rows = n) (hk : k < n) (hp : p < n) :
    ∃ w, U.row_permute (build_swap_perm n k p) = .ok w ∧ w.rows = U.rows ∧ w.cols = U.cols ∧
      (U.wf → w.wf) ∧
      (∀ i j, i < n → j < U.cols → w.get i j = U.get (swapIdx k p i) j) := by
  have hperm : isPermList (build_swap_perm n k p) U.rows := by
    rw [hU]; exact build_swap_perm_isPerm hk hp
  obtain ⟨w, hok, hr, hc, hwf, hget⟩ := U.row_permute_valid _ hperm
  refine ⟨w, hok, hr, hc, hwf, fun i j hi hj => ?_⟩
  rw [hget i j (by omega) hj, build_swap_perm_getD hk hp hi]

theorem permute_vector_swap (v : Mat) {n rb cb k p : Nat} (hvs : VecShape n rb cb)
    (hr : v.rows = rb) (hc : v.cols = cb) (hk : k < n) (hp : p < n) :
    ∃ w, permute_vector v (build_swap_perm n k p) = .ok w ∧ w.rows = v.rows ∧
      w.cols = v.cols ∧ (v.wf → w.wf) ∧
      (∀ i, i < n → vecAt w i = vecAt v (swapIdx k p i)) := by
  unfold permute_vector
  rcases hvs with ⟨h1, h2⟩ | ⟨h1, h2⟩
  · rw [if_pos (by omega)]
    have hperm : isPermList (build_swap_perm n k p) v.cols := by
      rw [hc, h2]; exact build_swap_perm_isPerm hk hp
    obtain ⟨w, hok, hwr, hwc, hwf, hget⟩ := v.col_permute_valid _ hperm
    refine ⟨w, hok, hwr, hwc, hwf, fun i hi => ?_⟩
    unfold vecAt
    rw [if_pos (by omega), if_pos (by omega)]
    rw [hget 0 i (by omega) (by omega), build_swap_perm_getD hk hp hi]
  · by_cases hone : v.rows = 1
    · rw [if_pos hone]
      have hn1 : n = 1 := by omega
      have hperm : isPermList (build_swap_perm n k p) v.cols := by
        rw [hc, h1, hn1]; exact (hn1 ▸ build_swap_perm_isPerm hk hp)
      obtain ⟨w, hok, hwr, hwc, hwf, hget⟩ := v.col_permute_valid _ hperm
      refine ⟨w, hok, hwr, hwc, hwf, fun i hi => ?_⟩
      unfold vecAt
      rw [if_pos (by omega), if_pos (by omega)]
      rw [hget 0 i (by omega) (by omega), build_swap_perm_getD hk hp hi]
    · rw [if_neg hone, if_pos (by omega)]
      have hperm : isPermList (build_swap_perm n k p) v.rows := by
        rw [hr, h2]; exact build_swap_perm_isPerm hk hp
      obtain ⟨w, hok, hwr, hwc, hwf, hget⟩ := v.row_permute_valid _ hperm
      refine ⟨w, hok, hwr, hwc, hwf, fun i hi => ?_⟩
      unfold vecAt
      rw [if_neg (by omega), if_neg (by omega)]
      rw [hget i 0 (by omega) (by omega), build_swap_perm_getD hk hp hi]

/- Pivot scan characterization. -/

theorem pivotScanAux_spec (U : Mat) (k : Nat) :
    ∀ (fuel i p0 : Nat) (mv0 : ℚ),
      mv0 = |U.get p0 k| → k ≤ p0 → p0 < i →
      (∀ t, k ≤ t → t < i → |U.get t k| ≤ mv0) →
      (∀ t, k ≤ t → t < i → |U.get t k| = mv0 → p0 ≤ t) →
      (pivotScanAux U k fuel i p0 mv0).2 = |U.get (pivotScanAux U k fuel i p0 mv0).1 k| ∧
      k ≤ (pivotScanAux U k fuel i p0 mv0).1 ∧
      (pivotScanAux U k fuel i p0 mv0).1 < i + fuel ∧
      (∀ t, k ≤ t → t < i + fuel → |U.get t k| ≤ (pivotScanAux U k fuel i p0 mv0).2) ∧
      (∀ t, k ≤ t → t < i + fuel → |U.get t k| = (pivotScanAux U k fuel i p0 mv0).2 →
        (pivotScanAux U k fuel i p0 mv0).1 ≤ t) := by
  intro fuel
  induction fuel with
  | zero =>
    intro i p0 mv0 h1 h2 h3 h4 h5
    simp only [pivotScanAux]
    exact ⟨h1, h2, by omega, fun t ht1 ht2 => h4 t ht1 (by omega),
      fun t ht1 ht2 h6 => h5 t ht1 (by omega) h6⟩
  | succ fuel ih =>
    intro i p0 mv0 h1 h2 h3 h4 h5
    simp only [pivotScanAux]
    by_cases hlt : mv0 < |U.get i k|
    · rw [if_pos hlt]
      have hres := ih (i + 1) i |U.get i k| rfl (by omega) (by omega)
        (fun t ht1 ht2 => by
          by_cases hti : t = i
          · rw [hti]
          · exact le_of_lt (lt_of_le_of_lt (h4 t ht1 (by omega)) hlt))
        (fun t ht1 ht2 h6 => by
          by_cases hti : t = i
          · omega
          · exfalso
            have hle := h4 t ht1 (by omega)
            rw [h6] at hle
            exact absurd hle (not_le.mpr hlt))
      have harith : i + 1 + fuel = i + (fuel + 1) := by omega
      rw [harith] at hres
      exact hres
    · rw [if_neg hlt]
      have hval : |U.get i k| ≤ mv0 := le_of_not_lt hlt
      have hres := ih (i + 1) p0 mv0 h1 h2 (by omega)
        (fun t ht1 ht2 => by
          by_cases hti : t = i
          · rw [hti]; exact hval
          · exact h4 t ht1 (by omega))
        (fun t ht1 ht2 h6 => by
          by_cases hti : t = i
          · omega
          · exact h5 t ht1 (by omega) h6)
      have harith : i + 1 + fuel = i + (fuel + 1) := by omega
      rw [harith] at hres
      exact hres

theorem pivotScan_spec (U : Mat) {k n : Nat} (hk : k < n) :
    (pivotScan U k n).2 = |U.get (pivotScan U k n).1 k| ∧
    k ≤ (pivotScan U k n).1 ∧ (pivotScan U k n).1 < n ∧
    (∀ t, k ≤ t → t < n → |U.get t k| ≤ (pivotScan U k n).2) ∧
    (∀ t, k ≤ t → t < n → |U.get t k| = (pivotScan U k n).2 → (pivotScan U k n).1 ≤ t) := by
  unfold pivotScan
  have hres := pivotScanAux_spec U k (n - (k + 1)) (k + 1) k |U.get k k| rfl (le_refl k)
    (by omega)
    (fun t ht1 ht2 => le_of_eq (by rw [show t = k by omega]))
    (fun t ht1 ht2 _ => by omega)
  have harith : k + 1 + (n - (k + 1)) = n := by omega
  rw [harith] at hres
  exact hres

/- Summation helpers. -/

theorem sum_range_split (g : Nat → ℚ) {i n : Nat} (h : i < n) :
    ∑ j ∈ Finset.range n, g j =
      (∑ j ∈ Finset.range i, g j) + g i + ∑ j ∈ Finset.Ico (i + 1) n, g j := by
  rw [Finset.range_eq_Ico, ← Finset.sum_Ico_consecutive g (Nat.zero_le i) (le_of_lt h),
    Finset.sum_eq_sum_Ico_succ_bot h g, ← Finset.range_eq_Ico]
  ring

theorem range'_map_sum (f : Nat → ℚ) : ∀ (len a : Nat),
    ((List.range' a len).map f).sum = ∑ j ∈ Finset.Ico a (a + len), f j := by
  intro len
  induction len with
  | zero => intro a; simp
  | succ len ih =>
    intro a
    rw [List.range'_succ, List.map_cons, List.sum_cons, ih (a + 1)]
    conv_rhs => rw [Finset.sum_eq_sum_Ico_succ_bot (show a < a + (len + 1) by omega) f]
    have harith : a + 1 + len = a + (len + 1) := by omega
    rw [harith]

theorem sum_two_point {n a b : Nat} (ha : a < n) (hb : b < n) (hab : a ≠ b) (ca cb : ℚ) :
    ∑ t ∈ Finset.range n, ((if t = a then ca else 0) + (if t = b then cb else 0)) =
      ca + cb := by
  rw [Finset.sum_add_distrib]
  rw [Finset.sum_ite_eq' (Finset.range n) a (fun _ => ca),
    Finset.sum_ite_eq' (Finset.range n) b (fun _ => cb)]
  simp [Finset.mem_range, ha, hb]

theorem sum_one_point {n a : Nat} (ha : a < n) (ca : ℚ) :
    ∑ t ∈ Finset.range n, (if t = a then ca else 0) = ca := by
  rw [Finset.sum_ite_eq' (Finset.range n) a (fun _ => ca)]
  simp [Finset.mem_range, ha]

theorem sum_eq_of_diff_two_point {n a b : Nat} (f g : Nat → ℚ) (ha : a < n) (hb : b < n)
    (hab : a ≠ b) (ca : ℚ)
    (h : ∀ t, t < n → f t - g t = (if t = a then ca else 0) + (if t = b then -ca else 0)) :
    ∑ t ∈ Finset.range n, f t = ∑ t ∈ Finset.range n, g t := by
  have h2 : ∑ t ∈ Finset.range n, (f t - g t) = 0 := by
    rw [Finset.sum_congr rfl (fun t ht => h t (Finset.mem_range.mp ht)),
      sum_two_point ha hb hab ca (-ca)]
    ring
  rw [Finset.sum_sub_distrib] at h2
  exact sub_eq_zero.mp h2

/- Entry values of the pivot-step stages. -/

theorem swapL_get {n k p i j : Nat} (L : Mat) (hi : i < n) (hj : j < n) :
    (swapL n k p L).get i j =
      if j < k then
        if i = k then L.get p j
        else if i = p then L.get k j
        else L.get i j
      else L.get i j :=
  Mat.get_ofFn n n _ hi hj

theorem elimL_get {n k i j : Nat} (L U : Mat) (hi : i < n) (hj : j < n) :
    (elimL n k L U).get i j =
      if k < i ∧ j = k then U.get i k / U.get k k else L.get i j :=
  Mat.get_ofFn n n _ hi hj

theorem elimU_get {n k i j : Nat} (U : Mat) (hi : i < n) (hj : j < n) :
    (elimU n k U).get i j =
      if k < i then
        if j = k then 0
        else if k < j then U.get i j - U.get i k / U.get k k * U.get k j
        else U.get i j
      else U.get i j :=
  Mat.get_ofFn n n _ hi hj

theorem elimU_row_le {n k i j : Nat} (U : Mat) (hi : i < n) (hj : j < n) (hik : i ≤ k) :
    (elimU n k U).get i j = U.get i j := by
  rw [elimU_get U hi hj, if_neg (by omega)]

theorem elimU_row_gt {n k i j : Nat} (U : Mat) (hk : k < n) (hi : i < n) (hj : j < n)
    (hik : k < i) (hkk : U.get k k ≠ 0)
    (hU3 : ∀ a b, a < n → b < n → b < a → b < k → U.get a b = 0) :
    (elimU n k U).get i j = U.get i j - U.get i k / U.get k k * U.get k j := by
  rw [elimU_get U hi hj, if_pos hik]
  by_cases hjk : j = k
  · subst hjk
    rw [if_pos rfl, div_mul_cancel₀ _ hkk]
    ring
  · rw [if_neg hjk]
    by_cases hkj : k < j
    · rw [if_pos hkj]
    · rw [if_neg hkj]
      have hjlt : j < k := by omega
      rw [hU3 i j hi hj (by omega) hjlt, hU3 k j hk hj (by omega) hjlt]
      ring

/-- Swap stage of one pivot step (taken when `pivot != k`): swapping rows
`k` and `pivot` of `U` and of the right-hand side, together with the partial
swap of `L`, keeps both the shape invariant and the algebraic invariant at
the same column `k`, and moves the chosen pivot entry into `U(k, k)`. -/
theorem swap_stage {n k p rb cb : Nat} {A b0 L U bw U1 bw1 : Mat} (hk : k < n) (hp : p < n)
    (hkp : k < p)
    (hSh : ShapeInv n rb cb L U bw) (hvs : VecShape n rb cb)
    (hInv : LUInv n k A b0 L U bw)
    (hU1 : U.row_permute (build_swap_perm n k p) = .ok U1)
    (hbw1 : permute_vector bw (build_swap_perm n k p) = .ok bw1) :
    ShapeInv n rb cb (swapL n k p L) U1 bw1 ∧
      LUInv n k A b0 (swapL n k p L) U1 bw1 ∧
      U1.get k k = U.get p k := by
  obtain ⟨hLr, hLc, hLwf, hUr, hUc, hUwf, hbr, hbc, hbwf⟩ := hSh
  obtain ⟨f, ⟨hf1, hf2, hf3⟩, hLU, hb, hdiag, hup, hcols, hU3, hUd⟩ := hInv
  obtain ⟨w, hok, hwr, hwc, hwwf, hwget⟩ := row_permute_swap U hUr hk hp
  rw [hok] at hU1
  have hwU1 : w = U1 := by
    cases hU1
    rfl
  subst hwU1
  obtain ⟨wv, hokv, hvr, hvc, hvwf, hvget⟩ := permute_vector_swap bw hvs hbr hbc hk hp
  rw [hokv] at hbw1
  have hwv1 : wv = bw1 := by
    cases hbw1
    rfl
  subst hwv1
  have hU1get : ∀ t j, t < n → j < n → w.get t j = U.get (swapIdx k p t) j := by
    intro t j ht hj
    exact hwget t j ht (by omega)
  have hU1kk : w.get k k = U.get p k := by
    rw [hU1get k k hk hk, swapIdx_k]
  refine ⟨⟨rfl, rfl, Mat.ofFn_wf n n _, by omega, by omega, hwwf hUwf,
      by omega, by omega, hvwf hbwf⟩, ?_, hU1kk⟩
  refine ⟨fun i => f (swapIdx k p i), ⟨?_, ?_, ?_⟩, ?_, ?_, ?_, ?_, ?_, ?_, ?_⟩
  · intro i hi
    exact hf1 _ (swapIdx_lt hk hp hi)
  · intro i j hi hj hij
    have h2 := hf2 _ _ (swapIdx_lt hk hp hi) (swapIdx_lt hk hp hj) hij
    have h3 := congrArg (swapIdx k p) h2
    rwa [swapIdx_invol, swapIdx_invol] at h3
  · intro r hr
    obtain ⟨i, hi, hfi⟩ := hf3 r hr
    refine ⟨swapIdx k p i, swapIdx_lt hk hp hi, ?_⟩
    show f (swapIdx k p (swapIdx k p i)) = r
    rw [swapIdx_invol]
    exact hfi
  · -- luE with the composed permutation
    intro i j hi hj
    rw [← hLU (swapIdx k p i) j (swapIdx_lt hk hp hi) hj]
    unfold luE
    by_cases hik : i = k
    · rw [hik, swapIdx_k]
      apply sum_eq_of_diff_two_point _ _ hk hp (by omega) (U.get p j)
      intro t htn
      rw [swapL_get L hk htn, hU1get t j htn hj]
      by_cases htk : t = k
      · rw [htk, if_neg (by omega), hdiag k hk, swapIdx_k,
          hcols p k hp hk hkp (le_refl k)]
        rw [if_pos rfl, if_neg (by omega)]
        ring
      · by_cases htp : t = p
        · rw [htp, if_neg (by omega), hup k p hk hp hkp, hdiag p hp]
          rw [if_neg (by omega), if_pos rfl]
          ring
        · rw [swapIdx_of_ne htk htp]
          by_cases htlt : t < k
          · rw [if_neg htk, if_neg htp, if_pos htlt, if_pos (show k = k from rfl)]
            ring
          · have hLkt : L.get k t = 0 := hup k t hk htn (by omega)
            have hLpt : L.get p t = 0 := by
              rcases Nat.lt_or_ge t p with hlt | hge
              · exact hcols p t hp htn hlt (by omega)
              · exact hup p t hp htn (by omega)
            rw [if_neg htlt, hLkt, hLpt, if_neg htk, if_neg htp]
            ring
    · by_cases hip : i = p
      · rw [hip, swapIdx_p]
        apply sum_eq_of_diff_two_point _ _ hk hp (by omega) (-(U.get k j))
        intro t htn
        rw [swapL_get L hp htn, hU1get t j htn hj]
        by_cases htk : t = k
        · rw [htk, if_neg (show ¬ (k < k) by omega), hcols p k hp hk hkp (le_refl k),
            swapIdx_k, hdiag k hk, if_pos (show k = k from rfl),
            if_neg (show ¬ k = p by omega)]
          ring
        · by_cases htp : t = p
          · rw [htp, if_neg (show ¬ (p < k) by omega), hdiag p hp, swapIdx_p,
              hup k p hk hp hkp, if_neg (show ¬ p = k by omega),
              if_pos (show p = p from rfl)]
            ring
          · rw [swapIdx_of_ne htk htp]
            by_cases htlt : t < k
            · rw [if_neg htk, if_neg htp, if_pos htlt,
                if_neg (show ¬ p = k by omega), if_pos (show p = p from rfl)]
              ring
            · have hLkt : L.get k t = 0 := hup k t hk htn (by omega)
              have hLpt : L.get p t = 0 := by
                rcases Nat.lt_or_ge t p with hlt | hge
                · exact hcols p t hp htn hlt (by omega)
                · exact hup p t hp htn (by omega)
              rw [if_neg htlt, hLkt, hLpt, if_neg htk, if_neg htp]
              ring
      · rw [swapIdx_of_ne hik hip]
        apply Finset.sum_congr rfl
        intro t ht
        have htn := Finset.mem_range.mp ht
        have hswL : (swapL n k p L).get i t = L.get i t := by
          rw [swapL_get L hi htn]
          by_cases htlt : t < k
          · rw [if_pos htlt, if_neg hik, if_neg hip]
          · rw [if_neg htlt]
        rw [hswL, hU1get t j htn hj]
        by_cases htk : t = k
        · have hLit : L.get i t = 0 := by
            rw [htk]
            rcases Nat.lt_or_ge i k with hlt | hge
            · exact hup i k hi hk hlt
            · exact hcols i k hi hk (by omega) (le_refl k)
          rw [hLit, zero_mul, zero_mul]
        · by_cases htp : t = p
          · have hLit : L.get i t = 0 := by
              rw [htp]
              rcases Nat.lt_or_ge i p with hlt | hge
              · exact hup i p hi hp hlt
              · exact hcols i p hi hp (by omega) (by omega)
            rw [hLit, zero_mul, zero_mul]
          · rw [swapIdx_of_ne htk htp]
  · -- right-hand side tracks the composed permutation
    intro i hi
    rw [hvget i hi]
    exact hb _ (swapIdx_lt hk hp hi)
  · -- L diagonal survives the partial swap
    intro i hi
    rw [swapL_get L hi hi]
    by_cases hilt : i < k
    · rw [if_pos hilt, if_neg (by omega), if_neg (by omega)]
      exact hdiag i hi
    · rw [if_neg hilt]
      exact hdiag i hi
  · -- L strictly upper zero
    intro i j hi hj hij
    rw [swapL_get L hi hj]
    by_cases hjlt : j < k
    · rw [if_pos hjlt, if_neg (by omega), if_neg (by omega)]
      exact hup i j hi hj hij
    · rw [if_neg hjlt]
      exact hup i j hi hj hij
  · -- L zero below diagonal in columns >= k
    intro i j hi hj hji hkj
    rw [swapL_get L hi hj, if_neg (by omega)]
    exact hcols i j hi hj hji hkj
  · -- U zero below diagonal in eliminated columns
    intro i j hi hj hji hjk
    rw [hU1get i j hi hj]
    have hswlt : j < swapIdx k p i := by
      unfold swapIdx
      split_ifs <;> omega
    exact hU3 _ j (swapIdx_lt hk hp hi) hj hswlt hjk
  · -- fixed pivots survive (rows < k are untouched by the swap)
    intro j hjk
    rw [hU1get j j (by omega) (by omega), swapIdx_of_ne (by omega) (by omega)]
    exact hUd j hjk

/-- Elimination stage of one pivot step: it keeps the shape invariant and
advances the algebraic invariant from `k` to `k + 1`, provided the pivot
entry `U(k, k)` is nonzero. -/
theorem elim_stage {n k rb cb : Nat} {A b0 L U bw : Mat} (hk : k < n)
    (hSh : ShapeInv n rb cb L U bw) (hInv : LUInv n k A b0 L U bw)
    (hkk : U.get k k ≠ 0) :
    ShapeInv n rb cb (elimL n k L U) (elimU n k U) bw ∧
      LUInv n (k + 1) A b0 (elimL n k L U) (elimU n k U) bw := by
  obtain ⟨hLr, hLc, hLwf, hUr, hUc, hUwf, hbr, hbc, hbwf⟩ := hSh
  obtain ⟨f, hbij, hLU, hb, hdiag, hup, hcols, hU3, hUd⟩ := hInv
  refine ⟨⟨rfl, rfl, Mat.ofFn_wf n n _, rfl, rfl, Mat.ofFn_wf n n _, hbr, hbc, hbwf⟩,
    f, hbij, ?_, hb, ?_, ?_, ?_, ?_, ?_⟩
  · -- luE preserved
    intro i j hi hj
    rw [← hLU i j hi hj]
    unfold luE
    by_cases hik : i ≤ k
    · apply Finset.sum_congr rfl
      intro t ht
      have htn := Finset.mem_range.mp ht
      rw [elimL_get L U hi htn, if_neg (by omega)]
      by_cases htk : k < t
      · have hLt : L.get i t = 0 := hup i t hi htn (by omega)
        rw [hLt, zero_mul, zero_mul]
      · rw [elimU_row_le U htn hj (by omega)]
    · push_neg at hik
      apply sum_eq_of_diff_two_point _ _ hk hi (by omega)
        (U.get i k / U.get k k * U.get k j)
      intro t htn
      rw [elimL_get L U hi htn]
      by_cases htk : t = k
      · rw [htk]
        rw [if_pos ⟨hik, rfl⟩, elimU_row_le U hk hj (le_refl k),
          hcols i k hi hk hik (le_refl k)]
        rw [if_pos rfl, if_neg (by omega)]
        ring
      · rw [if_neg (by rw [not_and_or]; right; exact htk)]
        by_cases hti : t = i
        · rw [hti]
          rw [elimU_row_gt U hk hi hj hik hkk hU3, hdiag i hi]
          rw [if_neg (by omega), if_pos rfl]
          ring
        · by_cases hklt : k < t
          · have hLt : L.get i t = 0 := by
              rcases Nat.lt_or_ge t i with hlt | hge
              · exact hcols i t hi htn hlt (by omega)
              · exact hup i t hi htn (by omega)
            rw [hLt, if_neg htk, if_neg hti]
            ring
          · rw [elimU_row_le U htn hj (by omega), if_neg htk, if_neg hti]
            ring
  · -- L diagonal
    intro i hi
    rw [elimL_get L U hi hi, if_neg (by omega)]
    exact hdiag i hi
  · -- L strictly upper zero
    intro i j hi hj hij
    rw [elimL_get L U hi hj, if_neg (by omega)]
    exact hup i j hi hj hij
  · -- L zero below diagonal in columns >= k+1
    intro i j hi hj hji hkj
    rw [elimL_get L U hi hj, if_neg (by omega)]
    exact hcols i j hi hj hji (by omega)
  · -- U zero below diagonal in columns < k+1
    intro i j hi hj hji hjk
    by_cases hik : i ≤ k
    · rw [elimU_row_le U hi hj hik]
      exact hU3 i j hi hj hji (by omega)
    · push_neg at hik
      rw [elimU_get U hi hj, if_pos hik]
      by_cases hjkeq : j = k
      · rw [if_pos hjkeq]
      · rw [if_neg hjkeq, if_neg (by omega)]
        exact hU3 i j hi hj hji (by omega)
  · -- pivots fixed so far are nonzero
    intro j hjk
    by_cases hjlt : j < k
    · rw [elimU_row_le U (by omega) (by omega) (by omega)]
      exact hUd j hjlt
    · have hjeq : j = k := by omega
      subst hjeq
      rw [elimU_row_le U (by omega) (by omega) (le_refl j)]
      exact hkk

theorem lupEps_pos : 0 < lupEps := by
  unfold lupEps
  norm_num

/-- Failed pivot: the step throws the singularity error. -/
theorem lupStep_err_spec {n k : Nat} (L U bw : Mat)
    (hpiv : (pivotScan U k n).2 ≤ lupEps) :
    lupStep n k L U bw = .error singularMsg := by
  simp only [lupStep]
  rw [if_pos hpiv]

/-- Successful pivot: the step returns a state satisfying the invariants at
`k + 1`. -/
theorem lupStep_ok_spec {n k rb cb : Nat} {A b0 L U bw : Mat} (hk : k < n)
    (hSh : ShapeInv n rb cb L U bw) (hvs : VecShape n rb cb)
    (hInv : LUInv n k A b0 L U bw)
    (hpiv : ¬ (pivotScan U k n).2 ≤ lupEps) :
    ∃ L2 U2 bw2, lupStep n k L U bw = .ok (L2, U2, bw2) ∧
      ShapeInv n rb cb L2 U2 bw2 ∧ LUInv n (k + 1) A b0 L2 U2 bw2 := by
  obtain ⟨hmv, hkp, hpn, hmax, hfirst⟩ := pivotScan_spec U hk
  have hne : U.get (pivotScan U k n).1 k ≠ 0 := by
    intro h0
    apply hpiv
    rw [hmv, h0, abs_zero]
    exact le_of_lt lupEps_pos
  simp only [lupStep]
  rw [if_neg hpiv]
  by_cases hpk : (pivotScan U k n).1 = k
  · rw [if_neg (by simp [hpk])]
    rw [hpk] at hne
    obtain ⟨hSh2, hInv2⟩ := elim_stage hk hSh hInv hne
    exact ⟨_, _, _, rfl, hSh2, hInv2⟩
  · have hkplt : k < (pivotScan U k n).1 := by omega
    obtain ⟨hLr, hLc, hLwf, hUr, hUc, hUwf, hbr, hbc, hbwf⟩ := hSh
    obtain ⟨w, hok, hwr, hwc, hwwf, hwget⟩ := row_permute_swap U hUr hk hpn
    obtain ⟨wv, hokv, hvr, hvc, hvwf, hvget⟩ :=
      permute_vector_swap bw hvs hbr hbc hk hpn
    rw [if_pos hpk, hok, hokv]
    obtain ⟨hSh1, hInv1, hU1kk⟩ := swap_stage hk hpn hkplt
      ⟨hLr, hLc, hLwf, hUr, hUc, hUwf, hbr, hbc, hbwf⟩ hvs hInv hok hokv
    have hne2 : w.get k k ≠ 0 := by
      rw [hU1kk]
      exact hne
    obtain ⟨hSh2, hInv2⟩ := elim_stage hk hSh1 hInv1 hne2
    exact ⟨_, _, _, rfl, hSh2, hInv2⟩

/-- Loop invariant: a successful run of the remaining `n - k` pivot steps
carries the invariants to `k = n`. -/
theorem lupLoopF_inv {n rb cb : Nat} {A b0 : Mat} (hvs : VecShape n rb cb) :
    ∀ (fuel k : Nat) (L U bw L3 U3 bw3 : Mat), k + fuel = n →
      ShapeInv n rb cb L U bw → LUInv n k A b0 L U bw →
      lupLoopF n fuel k L U bw = .ok (L3, U3, bw3) →
      ShapeInv n rb cb L3 U3 bw3 ∧ LUInv n n A b0 L3 U3 bw3 := by
  intro fuel
  induction fuel with
  | zero =>
    intro k L U bw L3 U3 bw3 hkn hSh hInv hok
    simp only [lupLoopF, Except.ok.injEq, Prod.mk.injEq] at hok
    obtain ⟨h1, h2, h3⟩ := hok
    subst h1; subst h2; subst h3
    have hkn' : k = n := by omega
    subst hkn'
    exact ⟨hSh, hInv⟩
  | succ fuel ih =>
    intro k L U bw L3 U3 bw3 hkn hSh hInv hok
    have hk : k < n := by omega
    simp only [lupLoopF] at hok
    by_cases hpiv : (pivotScan U k n).2 ≤ lupEps
    · rw [lupStep_err_spec L U bw hpiv] at hok
      exact Except.noConfusion hok
    · obtain ⟨L2, U2, bw2, hstep, hSh2, hInv2⟩ := lupStep_ok_spec hk hSh hvs hInv hpiv
      rw [hstep] at hok
      exact ih (k + 1) L2 U2 bw2 L3 U3 bw3 (by omega) hSh2 hInv2 hok

/-- Invariants hold before the first pivot step. -/
theorem LUInv_init {n : Nat} (A b0 : Mat) (hA : A.rows = n) (hAc : A.cols = n) :
    LUInv n 0 A b0 (identityM n) A b0 := by
  refine ⟨fun i => i, ⟨fun i hi => hi, fun i j _ _ h => h, fun r hr => ⟨r, hr, rfl⟩⟩,
    ?_, fun i _ => rfl, ?_, ?_, ?_, ?_, ?_⟩
  · intro i j hi hj
    unfold luE
    have hcongr : ∀ t ∈ Finset.range n, (identityM n).get i t * A.get t j =
        if t = i then A.get i j else 0 := by
      intro t ht
      have htn := Finset.mem_range.mp ht
      rw [identityM_get hi htn]
      by_cases hti : t = i
      · rw [hti, if_pos rfl, if_pos rfl, one_mul]
      · rw [if_neg (fun h => hti h.symm), if_neg hti, zero_mul]
    rw [Finset.sum_congr rfl hcongr, sum_one_point hi]
  · intro i hi
    rw [identityM_get hi hi, if_pos rfl]
  · intro i j hi hj hij
    rw [identityM_get hi hj, if_neg (by omega)]
  · intro i j hi hj hji _
    rw [identityM_get hi hj, if_neg (by omega)]
  · intro i j _ _ _ hj0
    omega
  · intro j hj0
    omega

/-- A successful decomposition ends with the invariants at `k = n`. -/
theorem lu_decompose_spec {n rb cb : Nat} {A b0 L U bw : Mat}
    (hA : A.rows = n) (hAc : A.cols = n) (hAwf : A.wf)
    (hbr : b0.rows = rb) (hbc : b0.cols = cb) (hbwf : b0.wf) (hvs : VecShape n rb cb)
    (hok : lu_decompose_lup A b0 = .ok (L, U, bw)) :
    ShapeInv n rb cb L U bw ∧ LUInv n n A b0 L U bw := by
  unfold lu_decompose_lup at hok
  rw [hA] at hok
  exact lupLoopF_inv hvs n 0 (identityM n) A b0 L U bw (by omega)
    ⟨identityM_rows n, identityM_cols n, identityM_wf n, hA, hAc, hAwf, hbr, hbc, hbwf⟩
    (LUInv_init A b0 hA hAc) hok

/- Forward substitution. -/

theorem forwardList_length (L bw : Mat) : ∀ m, (forwardList L bw m).length = m := by
  intro m
  induction m with
  | zero => rfl
  | succ m ih =>
    show (forwardList L bw m ++ [_]).length = m + 1
    rw [List.length_append, ih]
    rfl

theorem forwardList_getD_stable (L bw : Mat) :
    ∀ m i, i < m → (forwardList L bw m).getD i 0 = (forwardList L bw (i + 1)).getD i 0 := by
  intro m
  induction m with
  | zero => intro i hi; omega
  | succ m ih =>
    intro i hi
    by_cases him : i < m
    · rw [show forwardList L bw (m + 1) = forwardList L bw m ++ [_] from rfl,
        List.getD_append _ _ 0 i (by rw [forwardList_length]; exact him)]
      exact ih i him
    · have hieq : i = m := by omega
      rw [hieq]

theorem colMat_get (n : Nat) (l : List ℚ) (j : Nat) :
    (Mat.mk n 1 l).get j 0 = l.getD j 0 := by
  unfold Mat.get
  rw [Nat.mul_one, Nat.add_zero]

theorem forwardList_getD (L bw : Mat) (n : Nat) {i : Nat} (hi : i < n) :
    (forwardList L bw n).getD i 0 = vecAt bw i -
      ∑ j ∈ Finset.range i, L.get i j * (forwardList L bw n).getD j 0 := by
  rw [forwardList_getD_stable L bw n i hi]
  show (forwardList L bw i ++ [_]).getD i 0 = _
  rw [List.getD_append_right _ _ 0 i (by rw [forwardList_length])]
  rw [forwardList_length, Nat.sub_self]
  show vecAt bw i - (List.range i).foldl
      (fun acc j => acc + L.get i j * (forwardList L bw i).getD j 0) 0 = _
  rw [foldl_add_eq_sum (fun j => L.get i j * (forwardList L bw i).getD j 0), zero_add,
    range_map_sum]
  congr 1
  apply Finset.sum_congr rfl
  intro j hj
  have hji := Finset.mem_range.mp hj
  rw [forwardList_getD_stable L bw i j hji, forwardList_getD_stable L bw n j (by omega)]

/-- Correctness of the forward substitution: for a unit lower triangular `L`
the computed vector `y` satisfies `L y = b` exactly, row by row. -/
theorem forward_spec {n : Nat} (L bw : Mat) (hLr : L.rows = n)
    (hdiag : ∀ i, i < n → L.get i i = 1)
    (hup : ∀ i j, i < n → j < n → i < j → L.get i j = 0) :
    (forward_substitution L bw).rows = n ∧ (forward_substitution L bw).cols = 1 ∧
    (forward_substitution L bw).wf ∧
    ∀ i, i < n →
      ∑ j ∈ Finset.range n, L.get i j * (forward_substitution L bw).get j 0 =
        vecAt bw i := by
  unfold forward_substitution
  rw [hLr]
  refine ⟨rfl, rfl, ?_, ?_⟩
  · show (forwardList L bw n).length = n * 1
    rw [forwardList_length, Nat.mul_one]
  · intro i hi
    have hget : ∀ j : Nat, (Mat.mk n 1 (forwardList L bw n)).get j 0 =
        (forwardList L bw n).getD j 0 := fun j => colMat_get n _ j
    rw [sum_range_split (fun j => L.get i j * (Mat.mk n 1 (forwardList L bw n)).get j 0) hi]
    have htail : ∑ j ∈ Finset.Ico (i + 1) n,
        L.get i j * (Mat.mk n 1 (forwardList L bw n)).get j 0 = 0 := by
      apply Finset.sum_eq_zero
      intro j hj
      have hj2 := Finset.mem_Ico.mp hj
      rw [hup i j hi (by omega) (by omega), zero_mul]
    rw [htail, add_zero, hget i, hdiag i hi, one_mul, forwardList_getD L bw n hi]
    have hhead : ∑ j ∈ Finset.range i,
        L.get i j * (Mat.mk n 1 (forwardList L bw n)).get j 0 =
        ∑ j ∈ Finset.range i, L.get i j * (forwardList L bw n).getD j 0 := by
      apply Finset.sum_congr rfl
      intro j _
      rw [hget j]
    rw [hhead]
    ring

/- Backward substitution. -/

theorem backwardList_length (U y : Mat) (n : Nat) :
    ∀ cnt, (backwardList U y n cnt).length = cnt := by
  intro cnt
  induction cnt with
  | zero => rfl
  | succ cnt ih =>
    show (_ :: backwardList U y n cnt).length = cnt + 1
    rw [List.length_cons, ih]

theorem backwardList_suffix (U y : Mat) (n : Nat) :
    ∀ d cnt, ∃ front : List ℚ, front.length = d ∧
      backwardList U y n (cnt + d) = front ++ backwardList U y n cnt := by
  intro d
  induction d with
  | zero => intro cnt; exact ⟨[], rfl, rfl⟩
  | succ d ih =>
    intro cnt
    obtain ⟨front, hlen, heq⟩ := ih cnt
    have hstep : ∃ v, backwardList U y n (cnt + (d + 1)) =
        v :: backwardList U y n (cnt + d) := ⟨_, rfl⟩
    obtain ⟨v, hv⟩ := hstep
    refine ⟨v :: front, ?_, ?_⟩
    · rw [List.length_cons, hlen]
    · rw [hv, heq]
      rfl

/-- Correctness of one backward-substitution row: the value stored for `row`
satisfies the defining equation against the full computed vector. -/
theorem backward_row_eq {n : Nat} (U y : Mat) {row : Nat} (hrow : row < n) :
    (backwardList U y n n).getD row 0 =
      (vecAt y row - ∑ j ∈ Finset.Ico (row + 1) n,
        U.get row j * (backwardList U y n n).getD j 0) / U.get row row := by
  obtain ⟨cnt, hcnt⟩ : ∃ cnt, cnt = n - row - 1 := ⟨n - row - 1, rfl⟩
  obtain ⟨front, hflen, hfeq⟩ := backwardList_suffix U y n row (cnt + 1)
  rw [show cnt + 1 + row = n from by omega] at hfeq
  have hv : backwardList U y n (cnt + 1) =
      ((vecAt y (n - (cnt + 1)) -
          (List.range' ((n - (cnt + 1)) + 1) (n - ((n - (cnt + 1)) + 1))).foldl
            (fun acc j => acc +
              U.get (n - (cnt + 1)) j *
                (backwardList U y n cnt).getD (j - ((n - (cnt + 1)) + 1)) 0) 0) /
        U.get (n - (cnt + 1)) (n - (cnt + 1))) :: backwardList U y n cnt := rfl
  rw [show n - (cnt + 1) = row from by omega] at hv
  rw [hfeq, hv]
  rw [List.getD_append_right front _ 0 row (by rw [hflen]), hflen, Nat.sub_self,
    List.getD_cons_zero]
  congr 1
  congr 1
  rw [foldl_add_eq_sum
      (fun j => U.get row j * (backwardList U y n cnt).getD (j - (row + 1)) 0),
    zero_add, range'_map_sum, show row + 1 + (n - (row + 1)) = n from by omega]
  apply Finset.sum_congr rfl
  intro j hj
  have hj2 := Finset.mem_Ico.mp hj
  congr 1
  rw [List.getD_append_right front _ 0 j (by omega),
    hflen, show j - row = (j - (row + 1)) + 1 from by omega, List.getD_cons_succ]

/-- Correctness of the backward substitution: for an upper triangular `U`
with nonzero diagonal the computed vector `x` satisfies `U x = y` exactly. -/
theorem backward_spec {n : Nat} (U y : Mat) (hUr : U.rows = n)
    (hlow : ∀ i j, i < n → j < n → j < i → U.get i j = 0)
    (hdiag : ∀ i, i < n → U.get i i ≠ 0) :
    (backward_substitution U y).rows = n ∧ (backward_substitution U y).cols = 1 ∧
    (backward_substitution U y).wf ∧
    ∀ i, i < n →
      ∑ j ∈ Finset.range n, U.get i j * (backward_substitution U y).get j 0 =
        vecAt y i := by
  unfold backward_substitution
  rw [hUr]
  refine ⟨rfl, rfl, ?_, ?_⟩
  · show (backwardList U y n n).length = n * 1
    rw [backwardList_length, Nat.mul_one]
  · intro i hi
    have hget : ∀ j : Nat, (Mat.mk n 1 (backwardList U y n n)).get j 0 =
        (backwardList U y n n).getD j 0 := fun j => colMat_get n _ j
    rw [sum_range_split
      (fun j => U.get i j * (Mat.mk n 1 (backwardList U y n n)).get j 0) hi]
    have hhead : ∑ j ∈ Finset.range i,
        U.get i j * (Mat.mk n 1 (backwardList U y n n)).get j 0 = 0 := by
      apply Finset.sum_eq_zero
      intro j hj
      have hji := Finset.mem_range.mp hj
      rw [hlow i j hi (by omega) hji, zero_mul]
    have htail : ∑ j ∈ Finset.Ico (i + 1) n,
        U.get i j * (Mat.mk n 1 (backwardList U y n n)).get j 0 =
        ∑ j ∈ Finset.Ico (i + 1) n,
          U.get i j * (backwardList U y n n).getD j 0 := by
      apply Finset.sum_congr rfl
      intro j _
      rw [hget j]
    rw [hhead, htail, hget i, backward_row_eq U y hi, zero_add, mul_comm,
      div_mul_cancel₀ _ (hdiag i hi)]
    ring

/-- A value of `vecAt` on a column vector. -/
theorem vecAt_col {v : Mat} (i : Nat) (hc : v.cols = 1) (hi : i < v.rows) :
    vecAt v i = v.get i 0 := by
  unfold vecAt
  by_cases h1 : v.rows = 1
  · rw [if_pos h1, show i = 0 from by omega]
  · rw [if_neg h1]

/-- Core correctness of `solve_lup`: on success the result is an `n x 1`
column matrix whose entries exactly solve `A x = b`. -/
theorem solve_lup_correct {n rb cb : Nat} {A b0 x : Mat}
    (hA : A.rows = n) (hAc : A.cols = n) (hAwf : A.wf)
    (hbr : b0.rows = rb) (hbc : b0.cols = cb) (hbwf : b0.wf) (hvs : VecShape n rb cb)
    (hok : EqSys.solve_lup ⟨A, b0⟩ = .ok x) :
    x.rows = n ∧ x.cols = 1 ∧ x.wf ∧
      ∀ r, r < n → ∑ t ∈ Finset.range n, A.get r t * x.get t 0 = vecAt b0 r := by
  unfold EqSys.solve_lup at hok
  have hok2 : (match lu_decompose_lup A b0 with
    | Except.error e => (Except.error e : Except String Mat)
    | Except.ok (L, U, bw) =>
        Except.ok (backward_substitution U (forward_substitution L bw))) = Except.ok x := hok
  clear hok
  revert hok2
  cases hlu : lu_decompose_lup A b0 with
  | error e => intro hok; exact Except.noConfusion hok
  | ok trip =>
    obtain ⟨L, U, bw⟩ := trip
    intro hok
    have hx : backward_substitution U (forward_substitution L bw) = x := by
      cases hok
      rfl
    obtain ⟨hSh, hInv⟩ := lu_decompose_spec hA hAc hAwf hbr hbc hbwf hvs hlu
    obtain ⟨hLr, hLc, hLwf, hUr, hUc, hUwf, hbwr, hbwc, hbwwf⟩ := hSh
    obtain ⟨f, ⟨hf1, hf2, hf3⟩, hLU, hb, hdiagL, hupL, _, hU3, hUd⟩ := hInv
    have hlowU : ∀ i j, i < n → j < n → j < i → U.get i j = 0 :=
      fun i j hi hj hji => hU3 i j hi hj hji (by omega)
    have hdiagU : ∀ i, i < n → U.get i i ≠ 0 := fun i hi => hUd i hi
    obtain ⟨hyr, hyc, hywf, hyeq⟩ := forward_spec L bw hLr hdiagL hupL
    obtain ⟨hxr, hxc, hxwf, hxeq⟩ :=
      backward_spec U (forward_substitution L bw) hUr hlowU hdiagU
    rw [hx] at hxr hxc hxwf hxeq
    refine ⟨hxr, hxc, hxwf, ?_⟩
    intro r hr
    obtain ⟨i, hi, hfi⟩ := hf3 r hr
    have hcol : ∀ s, s < n →
        vecAt (forward_substitution L bw) s = (forward_substitution L bw).get s 0 :=
      fun s hs => vecAt_col s hyc (by omega)
    calc ∑ t ∈ Finset.range n, A.get r t * x.get t 0
        = ∑ t ∈ Finset.range n, luE n L U i t * x.get t 0 := by
          apply Finset.sum_congr rfl
          intro t ht
          rw [hLU i t hi (Finset.mem_range.mp ht), hfi]
      _ = ∑ t ∈ Finset.range n, ∑ s ∈ Finset.range n,
            L.get i s * U.get s t * x.get t 0 := by
          apply Finset.sum_congr rfl
          intro t _
          rw [luE, Finset.sum_mul]
      _ = ∑ s ∈ Finset.range n, ∑ t ∈ Finset.range n,
            L.get i s * U.get s t * x.get t 0 := Finset.sum_comm
      _ = ∑ s ∈ Finset.range n, L.get i s *
            ∑ t ∈ Finset.range n, U.get s t * x.get t 0 := by
          apply Finset.sum_congr rfl
          intro s _
          rw [Finset.mul_sum]
          apply Finset.sum_congr rfl
          intro t _
          ring
      _ = ∑ s ∈ Finset.range n, L.get i s * (forward_substitution L bw).get s 0 := by
          apply Finset.sum_congr rfl
          intro s hs
          have hsn := Finset.mem_range.mp hs
          rw [hxeq s hsn, hcol s hsn]
      _ = vecAt bw i := hyeq i hi
      _ = vecAt b0 r := by rw [hb i hi, hfi]

/-- Error analysis of the pivot loop: the run fails exactly when some step
reaches a pivot of magnitude at most `1e-18`, and the only error it can
raise is the singularity message. -/
theorem lupLoopF_error_iff {n rb cb : Nat} {A b0 : Mat} (hvs : VecShape n rb cb) :
    ∀ (fuel k : Nat) (L U bw : Mat), k + fuel = n →
      ShapeInv n rb cb L U bw → LUInv n k A b0 L U bw →
      ((∃ e, lupLoopF n fuel k L U bw = .error e) ↔
        ∃ d, d < fuel ∧ ∃ L2 U2 bw2, lupLoopF n d k L U bw = .ok (L2, U2, bw2) ∧
          (pivotScan U2 (k + d) n).2 ≤ lupEps) ∧
      (∀ e, lupLoopF n fuel k L U bw = .error e → e = singularMsg) := by
  intro fuel
  induction fuel with
  | zero =>
    intro k L U bw hkn hSh hInv
    constructor
    · constructor
      · intro ⟨e, he⟩
        simp only [lupLoopF] at he
        exact Except.noConfusion he
      · intro ⟨d, hd, _⟩
        omega
    · intro e he
      simp only [lupLoopF] at he
      exact Except.noConfusion he
  | succ fuel ih =>
    intro k L U bw hkn hSh hInv
    have hk : k < n := by omega
    by_cases hpiv : (pivotScan U k n).2 ≤ lupEps
    · have hrun : lupLoopF n (fuel + 1) k L U bw = .error singularMsg := by
        simp only [lupLoopF]
        rw [lupStep_err_spec L U bw hpiv]
      constructor
      · constructor
        · intro _
          refine ⟨0, by omega, L, U, bw, ?_, ?_⟩
          · simp only [lupLoopF]
          · rw [Nat.add_zero]
            exact hpiv
        · intro _
          exact ⟨singularMsg, hrun⟩
      · intro e he
        rw [hrun] at he
        cases he
        rfl
    · obtain ⟨L2, U2, bw2, hstep, hSh2, hInv2⟩ := lupStep_ok_spec hk hSh hvs hInv hpiv
      have hrun : lupLoopF n (fuel + 1) k L U bw = lupLoopF n fuel (k + 1) L2 U2 bw2 := by
        simp only [lupLoopF]
        rw [hstep]
      obtain ⟨hiff, herr⟩ := ih (k + 1) L2 U2 bw2 (by omega) hSh2 hInv2
      constructor
      · rw [hrun, hiff]
        constructor
        · intro ⟨d, hd, L3, U3, bw3, hok3, hp3⟩
          refine ⟨d + 1, by omega, L3, U3, bw3, ?_, ?_⟩
          · simp only [lupLoopF]
            rw [hstep]
            exact hok3
          · rw [show k + (d + 1) = k + 1 + d from by omega]
            exact hp3
        · intro ⟨d, hd, L3, U3, bw3, hok3, hp3⟩
          match d, hok3, hp3 with
          | 0, hok3, hp3 =>
            simp only [lupLoopF, Except.ok.injEq, Prod.mk.injEq] at hok3
            obtain ⟨h1, h2, h3⟩ := hok3
            rw [Nat.add_zero] at hp3
            rw [← h2] at hp3
            exact absurd hp3 hpiv
          | d + 1, hok3, hp3 =>
            simp only [lupLoopF] at hok3
            rw [hstep] at hok3
            refine ⟨d, by omega, L3, U3, bw3, hok3, ?_⟩
            rw [show k + 1 + d = k + (d + 1) from by omega]
            exact hp3
      · intro e he
        rw [hrun] at he
        exact herr e he

/-- Facts recovered from a successful `equation_system` construction. -/
theorem mkEqSys_ok_facts {A b : Mat} {sys : EqSys} (hmk : mkEqSys A b = .ok sys) :
    sys = ⟨A, b⟩ ∧ A.cols = A.rows ∧ VecShape A.rows b.rows b.cols := by
  unfold mkEqSys at hmk
  by_cases hsq : A.cols ≠ A.rows
  · rw [if_pos hsq] at hmk
    exact Except.noConfusion hmk
  · rw [if_neg hsq] at hmk
    push_neg at hsq
    by_cases hvec : isVec b = true ∧ vecLen b = A.rows
    · rw [if_pos hvec] at hmk
      have hsys : sys = ⟨A, b⟩ := by
        cases hmk
        rfl
      obtain ⟨hbv, hblen⟩ := hvec
      refine ⟨hsys, hsq, ?_⟩
      unfold isVec at hbv
      unfold vecLen at hblen
      by_cases hbr1 : b.rows = 1
      · left
        rw [if_pos hbr1] at hblen
        exact ⟨hbr1, hblen⟩
      · right
        rw [if_neg hbr1] at hblen
        simp only [Bool.or_eq_true, beq_iff_eq] at hbv
        rcases hbv with h | h
        · exact absurd h hbr1
        · exact ⟨h, hblen⟩
    · rw [if_neg hvec] at hmk
      exact Except.noConfusion hmk

/-- Transport of errors between `solve_lup` and the decomposition: the
triangular substitutions are total, so the solve fails exactly as the
decomposition does. -/
theorem solve_lup_error_transport (A b : Mat) (e : String) :
    EqSys.solve_lup ⟨A, b⟩ = .error e ↔ lu_decompose_lup A b = .error e := by
  show (match lu_decompose_lup A b with
    | Except.error e => (Except.error e : Except String Mat)
    | Except.ok (L, U, bw) =>
        Except.ok (backward_substitution U (forward_substitution L bw))) = .error e ↔ _
  cases hlu : lu_decompose_lup A b with
  | error e2 => simp
  | ok trip =>
    obtain ⟨L, U, bw⟩ := trip
    simp

/- Claim C1. -/

/-- Claim C1, counterexample to the claim as stated: the 1x1 system with
`A = [[1e-19]]`, `b = [1]` has an invertible matrix (`A(0,0) != 0`; indeed
`x = 10^19` solves it exactly), the constructor accepts it, yet `solve_lup`
fails with the singularity error because the only available pivot has
magnitude `1e-19 <= 1e-18`.  So `solve_lup` does not return a solution for
every invertible `A`. -/
theorem C1_counterexample :
    mkEqSys ⟨1, 1, [1e-19]⟩ ⟨1, 1, [1]⟩ = .ok ⟨⟨1, 1, [1e-19]⟩, ⟨1, 1, [1]⟩⟩ ∧
    (⟨1, 1, [1e-19]⟩ : Mat).get 0 0 ≠ 0 ∧
    (⟨1, 1, [1e-19]⟩ : Mat).get 0 0 * (10 ^ 19 : ℚ) = vecAt ⟨1, 1, [1]⟩ 0 ∧
    EqSys.solve_lup ⟨⟨1, 1, [1e-19]⟩, ⟨1, 1, [1]⟩⟩ = .error singularMsg := by
  refine ⟨rfl, ?_, ?_, ?_⟩
  · norm_num [Mat.get]
  · norm_num [Mat.get, vecAt]
  · have hpiv : (pivotScan (⟨1, 1, [1e-19]⟩ : Mat) 0 1).2 ≤ lupEps := by
      norm_num [pivotScan, pivotScanAux, Mat.get, lupEps, abs_of_pos]
    show (match lu_decompose_lup ⟨1, 1, [1e-19]⟩ ⟨1, 1, [1]⟩ with
      | Except.error e => (Except.error e : Except String Mat)
      | Except.ok (L, U, bw) =>
          Except.ok (backward_substitution U (forward_substitution L bw)))
      = Except.error singularMsg
    have hlu : lu_decompose_lup (⟨1, 1, [1e-19]⟩ : Mat) ⟨1, 1, [1]⟩ =
        .error singularMsg := by
      show lupLoopF 1 1 0 (identityM 1) ⟨1, 1, [1e-19]⟩ ⟨1, 1, [1]⟩ = .error singularMsg
      simp only [lupLoopF]
      rw [lupStep_err_spec _ _ _ hpiv]
    rw [hlu]

/-- Claim C1, amended: for every accepted equation system `A x = b`
(`A` square `n x n`, `b` a vector of length `n`, well-formed buffers), IF
`solve_lup` succeeds — which can fail with the singularity error even for an
invertible `A` when some pivot magnitude is `<= 1e-18`, see
`C1_counterexample` — then the returned `x` is an `n x 1` column vector and,
in exact arithmetic, `A * x = b` holds entrywise: every entry of
`matmul A x` equals the corresponding entry of `b`.  The computation is LU
decomposition with partial pivoting (`lu_decompose_lup`) followed by forward
substitution `L y = b` and backward substitution `U x = y`, which is the
very structure of `EqSys.solve_lup`. -/
theorem C1_solve_lup_solves (A b x : Mat) (sys : EqSys) (hAwf : A.wf) (hbwf : b.wf)
    (hmk : mkEqSys A b = .ok sys) (hok : sys.solve_lup = .ok x) :
    x.rows = A.rows ∧ x.cols = 1 ∧ (matmul A x).rows = A.rows ∧
      (matmul A x).cols = 1 ∧
      ∀ r, r < A.rows → (matmul A x).get r 0 = vecAt b r := by
  unfold mkEqSys at hmk
  by_cases hsq : A.cols ≠ A.rows
  · rw [if_pos hsq] at hmk
    exact Except.noConfusion hmk
  · rw [if_neg hsq] at hmk
    push_neg at hsq
    by_cases hvec : isVec b = true ∧ vecLen b = A.rows
    · rw [if_pos hvec] at hmk
      have hsys : sys = ⟨A, b⟩ := by
        cases hmk
        rfl
      subst hsys
      obtain ⟨hbv, hblen⟩ := hvec
      have hvs : VecShape A.rows b.rows b.cols := by
        unfold isVec at hbv
        unfold vecLen at hblen
        by_cases hbr1 : b.rows = 1
        · left
          rw [if_pos hbr1] at hblen
          exact ⟨hbr1, hblen⟩
        · right
          rw [if_neg hbr1] at hblen
          simp only [Bool.or_eq_true, beq_iff_eq] at hbv
          rcases hbv with h | h
          · exact absurd h hbr1
          · exact ⟨h, hblen⟩
      obtain ⟨hxr, hxc, hxwf, hsol⟩ :=
        solve_lup_correct rfl hsq hAwf rfl rfl hbwf hvs hok
      refine ⟨hxr, hxc, matmul_rows A x, ?_, ?_⟩
      · rw [matmul_cols, hxc]
      · intro r hr
        rw [matmul_get A x hr (by omega), hsq]
        exact hsol r hr
    · rw [if_neg hvec] at hmk
      exact Except.noConfusion hmk

/-- Claim C1, witness: the 1x1 system `2 x = 4` is accepted, solves to
`x = [2]`, and the theorem's conclusion evaluates on it. -/
theorem C1_witness :
    ∃ x : Mat, EqSys.solve_lup ⟨⟨1, 1, [2]⟩, ⟨1, 1, [4]⟩⟩ = .ok x ∧
      x.rows = 1 ∧ x.cols = 1 ∧ ∀ r, r < 1 → (matmul ⟨1, 1, [2]⟩ x).get r 0 =
        vecAt ⟨1, 1, [4]⟩ r := by
  have hok : EqSys.solve_lup ⟨⟨1, 1, [2]⟩, ⟨1, 1, [4]⟩⟩ = .ok ⟨1, 1, [2]⟩ := by
    norm_num [EqSys.solve_lup, lu_decompose_lup, lupLoopF, lupStep, pivotScan,
      pivotScanAux, identityM, elimL, elimU, Mat.ofFn, Mat.get, lupEps,
      forward_substitution, forwardList, backward_substitution, backwardList,
      vecAt, List.range_succ, List.range', abs_of_pos]
  refine ⟨⟨1, 1, [2]⟩, hok, ?_⟩
  have h := C1_solve_lup_solves ⟨1, 1, [2]⟩ ⟨1, 1, [4]⟩ ⟨1, 1, [2]⟩
    ⟨⟨1, 1, [2]⟩, ⟨1, 1, [4]⟩⟩ (by rfl) (by rfl) (by rfl) hok
  exact ⟨h.1, h.2.1, h.2.2.2.2⟩

/- Claim C2. -/

/-- Claim C2: (1) for every pivot column `k` the pivot chosen from rows
`k..n-1` attains the largest absolute value in column `k`, and ties keep the
earliest row (the scan replaces the candidate only on a strictly greater
value); (2) for every accepted well-formed system, the solve fails exactly
when some pivot step is reached whose chosen pivot magnitude is `<= 1e-18`,
and the only possible error is the singularity error; (3) in particular the
singular system `A = [[1,2],[2,4]]`, `b = [1,3]` fails with the singularity
error. -/
theorem C2_pivot_selection_and_singularity :
    (∀ (U : Mat) (k n : Nat), k < n →
      k ≤ (pivotScan U k n).1 ∧ (pivotScan U k n).1 < n ∧
      (pivotScan U k n).2 = |U.get (pivotScan U k n).1 k| ∧
      (∀ t, k ≤ t → t < n → |U.get t k| ≤ (pivotScan U k n).2) ∧
      (∀ t, k ≤ t → t < n → |U.get t k| = (pivotScan U k n).2 →
        (pivotScan U k n).1 ≤ t)) ∧
    (∀ (A b : Mat) (sys : EqSys), A.wf → b.wf → mkEqSys A b = .ok sys →
      ((∃ e, sys.solve_lup = .error e) ↔
        reachesSmallPivot A.rows (identityM A.rows) A b) ∧
      (∀ e, sys.solve_lup = .error e → e = singularMsg)) ∧
    EqSys.solve_lup ⟨⟨2, 2, [1, 2, 2, 4]⟩, ⟨2, 1, [1, 3]⟩⟩ = .error singularMsg := by
  refine ⟨?_, ?_, ?_⟩
  · intro U k n hk
    obtain ⟨hmv, hkp, hpn, hmax, hfirst⟩ := pivotScan_spec U hk
    exact ⟨hkp, hpn, hmv, hmax, hfirst⟩
  · intro A b sys hAwf hbwf hmk
    obtain ⟨hsys, hsq, hvs⟩ := mkEqSys_ok_facts hmk
    subst hsys
    have htrans : ∀ e, EqSys.solve_lup ⟨A, b⟩ = .error e ↔
        lupLoopF A.rows A.rows 0 (identityM A.rows) A b = .error e := by
      intro e
      rw [solve_lup_error_transport A b e]
      unfold lu_decompose_lup
      exact Iff.rfl
    obtain ⟨hiff, herr⟩ := lupLoopF_error_iff hvs A.rows 0 (identityM A.rows) A b
      (by omega)
      ⟨identityM_rows _, identityM_cols _, identityM_wf _, rfl, hsq, hAwf, rfl, rfl, hbwf⟩
      (LUInv_init A b rfl hsq)
    constructor
    · constructor
      · intro ⟨e, he⟩
        obtain ⟨d, hd, L2, U2, bw2, hok2, hp2⟩ := hiff.mp ⟨e, (htrans e).mp he⟩
        rw [Nat.zero_add] at hp2
        exact ⟨d, hd, L2, U2, bw2, hok2, hp2⟩
      · intro ⟨d, hd, L2, U2, bw2, hok2, hp2⟩
        obtain ⟨e, he⟩ := hiff.mpr ⟨d, hd, L2, U2, bw2, hok2, by rw [Nat.zero_add]; exact hp2⟩
        exact ⟨e, (htrans e).mpr he⟩
    · intro e he
      exact herr e ((htrans e).mp he)
  · have hlu : lu_decompose_lup (⟨2, 2, [1, 2, 2, 4]⟩ : Mat) ⟨2, 1, [1, 3]⟩ =
        .error singularMsg := by
      norm_num [lu_decompose_lup, lupLoopF, lupStep, pivotScan, pivotScanAux,
        identityM, elimL, elimU, swapL, Mat.ofFn, Mat.get, lupEps, build_swap_perm,
        Mat.row_permute, Mat.col_permute, permute_vector, hasDup,
        List.range_succ, List.range', abs_of_pos, abs_of_nonneg]
    exact (solve_lup_error_transport _ _ _).mpr hlu

/-- Claim C2, witness: the pivot characterization applied to the concrete
working matrix `[[1,2],[2,4]]` at column 0 (size 2): the strict-majorization
scan picks row 1 with magnitude 2. -/
theorem C2_witness :
    (0 : Nat) < 2 ∧
    (pivotScan ⟨2, 2, [1, 2, 2, 4]⟩ 0 2).2 =
      |(⟨2, 2, [1, 2, 2, 4]⟩ : Mat).get (pivotScan ⟨2, 2, [1, 2, 2, 4]⟩ 0 2).1 0| := by
  refine ⟨by norm_num, ?_⟩
  exact (C2_pivot_selection_and_singularity.1 ⟨2, 2, [1, 2, 2, 4]⟩ 0 2 (by norm_num)).2.2.1

/- Claim C3. -/

/-- Claim C3, counterexample to the claim as stated: `matrix(rows, cols)` is
backed by `new type[size]` WITHOUT value-initialization
(src/containers/array.hpp:102), so the fresh buffer is indeterminate rather
than zero: an allocation whose indeterminate contents are the constant 5
yields a nonzero element, both for the constructor and for the region
outside the preserved overlap after `resize`. -/
theorem C3_counterexample :
    (Mat.mkRC 1 1 (fun _ => 5)).get 0 0 ≠ 0 ∧
    ((⟨1, 1, [7]⟩ : Mat).resize 1 2 (fun _ => 5)).get 0 1 ≠ 0 := by
  constructor
  · rw [Mat.get_mkRC 1 1 _ (by omega) (by omega)]
    norm_num
  · rw [Mat.resize_get _ _ (by omega) (by omega)]
    norm_num

/-- Claim C3, amended: constructing with explicit `(rows, cols)` yields a
`rows x cols` matrix whose buffer holds the default-initialized
(indeterminate) allocation contents — NOT necessarily zero; and
`resize(newRows, newCols)` preserves the overlapping row-major prefix region
of `min(rows, newRows)` rows by `min(cols, newCols)` columns while every
element outside that region is a fresh indeterminate value — NOT necessarily
zero.  Indeterminate storage is modeled by the explicit valuation `junk`. -/
theorem C3_construct_and_resize :
    (∀ (r c : Nat) (junk : Nat → ℚ),
      (Mat.mkRC r c junk).rows = r ∧ (Mat.mkRC r c junk).cols = c ∧
      (Mat.mkRC r c junk).wf ∧
      ∀ i j, i < r → j < c → (Mat.mkRC r c junk).get i j = junk (i * c + j)) ∧
    (∀ (m : Mat) (nr nc : Nat) (junk : Nat → ℚ), 0 < nr → 0 < nc →
      (m.resize nr nc junk).rows = nr ∧ (m.resize nr nc junk).cols = nc ∧
      ∀ i j, i < nr → j < nc →
        ((i < min nr m.rows ∧ j < min nc m.cols →
            (m.resize nr nc junk).get i j = m.get i j) ∧
          (¬ (i < min nr m.rows ∧ j < min nc m.cols) →
            (m.resize nr nc junk).get i j = junk (i * nc + j)))) := by
  constructor
  · intro r c junk
    refine ⟨rfl, rfl, ?_, ?_⟩
    · show ((List.range (r * c)).map junk).length = r * c
      simp
    · intro i j hi hj
      exact Mat.get_mkRC r c junk hi hj
  · intro m nr nc junk hr hc
    refine ⟨Mat.resize_rows m junk hr hc, Mat.resize_cols m junk hr hc, ?_⟩
    intro i j hi hj
    constructor
    · intro hin
      rw [Mat.resize_get m junk hi hj, if_pos hin]
    · intro hout
      rw [Mat.resize_get m junk hi hj, if_neg hout]

/-- Claim C3, witness: resizing the 1x1 matrix `[7]` to 2x2 with
indeterminate contents 5 keeps the overlap cell `(0,0)` at 7 and leaves a 5
outside the overlap. -/
theorem C3_witness :
    (0 : Nat) < 2 ∧
    ((⟨1, 1, [7]⟩ : Mat).resize 2 2 (fun _ => 5)).get 0 0 = (⟨1, 1, [7]⟩ : Mat).get 0 0 ∧
    ((⟨1, 1, [7]⟩ : Mat).resize 2 2 (fun _ => 5)).get 1 1 = 5 := by
  have h := (C3_construct_and_resize.2 ⟨1, 1, [7]⟩ 2 2 (fun _ => 5)
    (by norm_num) (by norm_num)).2.2
  refine ⟨by norm_num, ?_, ?_⟩
  · exact (h 0 0 (by norm_num) (by norm_num)).1 (by norm_num)
  · exact (h 1 1 (by norm_num) (by norm_num)).2 (by norm_num)

/- Claim C5. -/

/-- Claim C5: `row_permute`/`col_permute` succeed exactly on true
permutations of the matching dimension (length, range and uniqueness are all
validated before any data movement); on an invalid argument the object state
after the call is completely unmodified; and the identity permutation is a
no-op returning the matrix unchanged. -/
theorem C5_permute_validation (m : Mat) (perm : List Nat) (hwf : m.wf) :
    ((∃ w, m.row_permute perm = .ok w) ↔ isPermList perm m.rows) ∧
    ((∃ w, m.col_permute perm = .ok w) ↔ isPermList perm m.cols) ∧
    (¬ isPermList perm m.rows → m.row_permute_post perm = m) ∧
    (¬ isPermList perm m.cols → m.col_permute_post perm = m) ∧
    m.row_permute (List.range m.rows) = .ok m ∧
    m.col_permute (List.range m.cols) = .ok m := by
  refine ⟨⟨?_, ?_⟩, ⟨?_, ?_⟩, ?_, ?_, ?_, ?_⟩
  · intro ⟨w, hw⟩
    exact m.row_permute_ok_isPerm perm w hw
  · intro hv
    obtain ⟨w, hok, _⟩ := m.row_permute_valid perm hv
    exact ⟨w, hok⟩
  · intro ⟨w, hw⟩
    exact m.col_permute_ok_isPerm perm w hw
  · intro hv
    obtain ⟨w, hok, _⟩ := m.col_permute_valid perm hv
    exact ⟨w, hok⟩
  · exact m.row_permute_post_invalid perm
  · exact m.col_permute_post_invalid perm
  · exact m.row_permute_id hwf
  · exact m.col_permute_id hwf

/-- Claim C5, witness: on the 2x2 matrix `[[1,2],[3,4]]`, the duplicate
array `[0,0]` is rejected leaving the object unchanged, and the identity
permutation `[0,1]` is accepted and returns the matrix itself. -/
theorem C5_witness :
    (⟨2, 2, [1, 2, 3, 4]⟩ : Mat).row_permute_post [0, 0] = ⟨2, 2, [1, 2, 3, 4]⟩ ∧
    (⟨2, 2, [1, 2, 3, 4]⟩ : Mat).row_permute [0, 1] = .ok ⟨2, 2, [1, 2, 3, 4]⟩ := by
  have h := C5_permute_validation ⟨2, 2, [1, 2, 3, 4]⟩ [0, 0] (by rfl)
  have h2 := C5_permute_validation ⟨2, 2, [1, 2, 3, 4]⟩ [0, 1] (by rfl)
  constructor
  · apply h.2.2.1
    intro ⟨_, _, hnd⟩
    simp at hnd
  · have := h2.2.2.2.2.1
    rwa [show List.range (⟨2, 2, [1, 2, 3, 4]⟩ : Mat).rows = [0, 1] from by decide] at this

/- Claim C6. -/

/-- Claim C6: a `solve_lup()` call never mutates the stored members `A` and
`b` of the equation system — the method works on private working copies, and
both the success and the failure path leave the members equal to their values
before the call (the call's full effect is the returned value plus the
untouched member pair). -/
theorem solve_lup_call_eq (sys : EqSys) :
    sys.solve_lup_call = (sys.solve_lup, sys) := by
  show (match lu_decompose_lup sys.A sys.b with
      | Except.error e => (Except.error e, sys)
      | Except.ok (L, U, bw) =>
          (Except.ok (backward_substitution U (forward_substitution L bw)), sys)) =
    ((match lu_decompose_lup sys.A sys.b with
      | Except.error e => (Except.error e : Except String Mat)
      | Except.ok (L, U, bw) =>
          Except.ok (backward_substitution U (forward_substitution L bw))), sys)
  cases lu_decompose_lup sys.A sys.b with
  | error e => rfl
  | ok trip =>
    obtain ⟨L, U, bw⟩ := trip
    rfl

theorem C6_solve_lup_frame (sys : EqSys) :
    (sys.solve_lup_call.2.A = sys.A ∧ sys.solve_lup_call.2.b = sys.b) ∧
    sys.solve_lup_call.1 = sys.solve_lup ∧
    ((∃ e, sys.solve_lup = .error e) ∨ ∃ x, sys.solve_lup = .ok x) := by
  have hcall := solve_lup_call_eq sys
  refine ⟨⟨by rw [hcall], by rw [hcall]⟩, by rw [hcall], ?_⟩
  cases hx : sys.solve_lup with
  | error e => exact Or.inl ⟨e, rfl⟩
  | ok x => exact Or.inr ⟨x, rfl⟩

/- Claim C9. -/

theorem isPermList_perm_range {perm : List Nat} {n : Nat} (hv : isPermList perm n) :
    perm.Perm (List.range n) := by
  obtain ⟨hlen, hrange, hnodup⟩ := hv
  refine (List.perm_ext_iff_of_nodup hnodup (List.nodup_range n)).mpr ?_
  have hsub : perm.toFinset ⊆ Finset.range n := by
    intro a ha
    rw [List.mem_toFinset] at ha
    rw [Finset.mem_range]
    exact hrange a ha
  have hcard : perm.toFinset = Finset.range n := by
    apply Finset.eq_of_subset_of_card_le hsub
    rw [Finset.card_range, List.toFinset_card_of_nodup hnodup, hlen]
  intro a
  constructor
  · intro ha
    exact List.mem_range.mpr (hrange a ha)
  · intro ha
    rw [← List.mem_toFinset, hcard, Finset.mem_range]
    exact List.mem_range.mp ha

theorem map_getD_self (l : List Nat) :
    (List.range l.length).map (fun i => l.getD i 0) = l := by
  apply List.ext_getElem
  · simp
  · intro i h1 h2
    rw [List.getElem_map, List.getElem_range, List.getD_eq_getElem l 0 h2]

theorem row_permute_data_perm {m w : Mat} {perm : List Nat} (hwf : m.wf)
    (hok : m.row_permute perm = .ok w) : w.data.Perm m.data := by
  have hv := m.row_permute_ok_isPerm perm w hok
  obtain ⟨hlen, hrange, hnodup⟩ := hv
  unfold Mat.row_permute at hok
  rw [if_neg (by omega),
      if_neg (by rw [Bool.not_eq_true, any_ge_eq_false_iff]; exact hrange),
      if_neg (by rw [Bool.not_eq_true, hasDup_eq_false_iff]; exact hnodup)] at hok
  by_cases hz : m.rows = 0 ∨ m.cols = 0
  · rw [if_pos hz] at hok
    rw [← Except.ok.inj hok]
  · rw [if_neg hz] at hok
    push_neg at hz
    have hdata : w.data = (List.range m.rows).flatMap (fun r =>
        (List.range m.cols).map (fun c => m.get (perm.getD r 0) c)) :=
      (congrArg Mat.data (Except.ok.inj hok)).symm
    rw [hdata]
    have hchain : (List.range m.rows).flatMap (fun r =>
        (List.range m.cols).map (fun c => m.get (perm.getD r 0) c)) =
        perm.flatMap (fun r => (List.range m.cols).map (fun c => m.get r c)) := by
      rw [← List.flatMap_map (fun r => perm.getD r 0)
        (fun r => (List.range m.cols).map (fun c => m.get r c)) (List.range m.rows)]
      rw [show (List.range m.rows).map (fun i => perm.getD i 0) = perm from by
        rw [← hlen]; exact map_getD_self perm]
    rw [hchain, ← flatMap_range_get_data m hwf (Nat.pos_of_ne_zero hz.2)]
    exact List.Perm.flatMap_right _ (isPermList_perm_range ⟨hlen, hrange, hnodup⟩)

theorem col_permute_data_perm {m w : Mat} {perm : List Nat} (hwf : m.wf)
    (hok : m.col_permute perm = .ok w) : w.data.Perm m.data := by
  have hv := m.col_permute_ok_isPerm perm w hok
  obtain ⟨hlen, hrange, hnodup⟩ := hv
  unfold Mat.col_permute at hok
  rw [if_neg (by omega),
      if_neg (by rw [Bool.not_eq_true, any_ge_eq_false_iff]; exact hrange),
      if_neg (by rw [Bool.not_eq_true, hasDup_eq_false_iff]; exact hnodup)] at hok
  by_cases hz : m.rows = 0 ∨ m.cols = 0
  · rw [if_pos hz] at hok
    rw [← Except.ok.inj hok]
  · rw [if_neg hz] at hok
    push_neg at hz
    have hdata : w.data = (List.range m.rows).flatMap (fun r =>
        (List.range m.cols).map (fun c => m.get r (perm.getD c 0))) :=
      (congrArg Mat.data (Except.ok.inj hok)).symm
    rw [hdata, ← flatMap_range_get_data m hwf (Nat.pos_of_ne_zero hz.2)]
    apply List.Perm.bind_left
    intro r _
    have hrow : (List.range m.cols).map (fun c => m.get r (perm.getD c 0)) =
        perm.map (fun c => m.get r c) := by
      conv_rhs => rw [show perm = (List.range m.cols).map (fun i => perm.getD i 0) from by
        rw [← hlen]; exact (map_getD_self perm).symm]
      rw [List.map_map]
      apply List.map_congr_left
      intro c _
      simp [Function.comp]
    rw [hrow]
    exact List.Perm.map _ (isPermList_perm_range ⟨hlen, hrange, hnodup⟩)

theorem sumsq_eq_zero_iff (l : List ℚ) :
    (l.map (fun q => q * q)).sum = 0 ↔ ∀ q ∈ l, q = 0 := by
  induction l with
  | nil => simp
  | cons x xs ih =>
    rw [List.map_cons, List.sum_cons]
    have h1 : (0 : ℚ) ≤ x * x := mul_self_nonneg x
    have h2 : (0 : ℚ) ≤ (xs.map (fun q => q * q)).sum := by
      apply List.sum_nonneg
      intro a ha
      simp only [List.mem_map] at ha
      obtain ⟨q, _, rfl⟩ := ha
      exact mul_self_nonneg q
    rw [add_eq_zero_iff_of_nonneg h1 h2, mul_self_eq_zero, ih]
    constructor
    · intro ⟨hx, hxs⟩ q hq
      rcases List.mem_cons.mp hq with h | h
      · rw [h]; exact hx
      · exact hxs q h
    · intro h
      exact ⟨h x (by simp), fun q hq => h q (by simp [hq])⟩

/-- Claim C9: for every vector (1xN or Nx1 matrix), `norm_l2(v)` — which is
`sqrt` of the exact accumulator `normL2acc v` — is zero exactly when every
element of `v` is zero, and it is invariant under every valid row or column
permutation of the vector. -/
theorem C9_norm_l2 (v : Mat) (hv : isVec v = true) (hwf : v.wf) :
    (Real.sqrt (normL2acc v : ℚ) = 0 ↔ ∀ q ∈ v.data, q = 0) ∧
    (∀ (perm : List Nat) (w : Mat), v.row_permute perm = .ok w →
      Real.sqrt (normL2acc w : ℚ) = Real.sqrt (normL2acc v : ℚ)) ∧
    (∀ (perm : List Nat) (w : Mat), v.col_permute perm = .ok w →
      Real.sqrt (normL2acc w : ℚ) = Real.sqrt (normL2acc v : ℚ)) := by
  refine ⟨?_, ?_, ?_⟩
  · rw [Real.sqrt_eq_zero', normL2acc_eq_sum]
    constructor
    · intro hle
      rw [← sumsq_eq_zero_iff]
      have hge : (0 : ℚ) ≤ (v.data.map (fun q => q * q)).sum := by
        apply List.sum_nonneg
        intro a ha
        simp only [List.mem_map] at ha
        obtain ⟨q, _, rfl⟩ := ha
        exact mul_self_nonneg q
      have hle2 : ((v.data.map (fun q => q * q)).sum : ℚ) ≤ 0 := by
        exact_mod_cast hle
      linarith
    · intro hall
      rw [(sumsq_eq_zero_iff v.data).mpr hall]
      norm_num
  · intro perm w hok
    have hperm := row_permute_data_perm hwf hok
    have hacc : normL2acc w = normL2acc v := by
      rw [normL2acc_eq_sum, normL2acc_eq_sum]
      exact List.Perm.sum_eq (List.Perm.map _ hperm)
    rw [hacc]
  · intro perm w hok
    have hperm := col_permute_data_perm hwf hok
    have hacc : normL2acc w = normL2acc v := by
      rw [normL2acc_eq_sum, normL2acc_eq_sum]
      exact List.Perm.sum_eq (List.Perm.map _ hperm)
    rw [hacc]

/-- Claim C9, witness: the row vector `[3, 4]` has a nonzero norm (its
elements are not all zero), and swapping its two entries by `col_permute`
keeps the norm unchanged. -/
theorem C9_witness :
    (¬ Real.sqrt (normL2acc ⟨1, 2, [3, 4]⟩ : ℚ) = 0) ∧
    Real.sqrt (normL2acc ⟨1, 2, [4, 3]⟩ : ℚ) =
      Real.sqrt (normL2acc ⟨1, 2, [3, 4]⟩ : ℚ) := by
  have h := C9_norm_l2 ⟨1, 2, [3, 4]⟩ (by rfl) (by rfl)
  constructor
  · intro h0
    have hall := h.1.mp h0
    have h3 := hall 3 (by norm_num)
    norm_num at h3
  · exact h.2.2 [1, 0] ⟨1, 2, [4, 3]⟩ (by rfl)

/- Claim C10. -/

/-- Claim C10: the constructor accepts the right-hand side in either
orientation (`1 x n` row or `n x 1` column), and whenever the solve
succeeds, the solution is returned as an `n x 1` column matrix. -/
theorem C10_solution_is_column (A b : Mat) :
    (∀ (sys : EqSys) (x : Mat), A.wf → b.wf →
      mkEqSys A b = .ok sys → sys.solve_lup = .ok x →
      x.rows = A.rows ∧ x.cols = 1) ∧
    (A.cols = A.rows →
      ((b.rows = 1 ∧ b.cols = A.rows) ∨ (b.cols = 1 ∧ b.rows = A.rows)) →
      mkEqSys A b = .ok ⟨A, b⟩) := by
  constructor
  · intro sys x hAwf hbwf hmk hok
    obtain ⟨hsys, hsq, hvs⟩ := mkEqSys_ok_facts hmk
    subst hsys
    obtain ⟨hxr, hxc, _, _⟩ := solve_lup_correct rfl hsq hAwf rfl rfl hbwf hvs hok
    exact ⟨hxr, hxc⟩
  · intro hsq horient
    unfold mkEqSys
    rw [if_neg (by omega)]
    have hcond : isVec b = true ∧ vecLen b = A.rows := by
      unfold isVec vecLen
      rcases horient with ⟨h1, h2⟩ | ⟨h1, h2⟩
      · constructor
        · simp [h1]
        · rw [if_pos h1]
          exact h2
      · constructor
        · simp [h1]
        · by_cases hr1 : b.rows = 1
          · rw [if_pos hr1]
            omega
          · rw [if_neg hr1]
            exact h2
    rw [if_pos hcond]

/-- Claim C10, witness: the identity system with the SAME right-hand side
entries passed once as a `1 x 2` row and once as a `2 x 1` column is
accepted in both orientations and both solves return the same `2 x 1`
column. -/
theorem C10_witness :
    mkEqSys ⟨2, 2, [1, 0, 0, 1]⟩ ⟨1, 2, [1, 3]⟩ =
      .ok ⟨⟨2, 2, [1, 0, 0, 1]⟩, ⟨1, 2, [1, 3]⟩⟩ ∧
    mkEqSys ⟨2, 2, [1, 0, 0, 1]⟩ ⟨2, 1, [1, 3]⟩ =
      .ok ⟨⟨2, 2, [1, 0, 0, 1]⟩, ⟨2, 1, [1, 3]⟩⟩ ∧
    EqSys.solve_lup ⟨⟨2, 2, [1, 0, 0, 1]⟩, ⟨1, 2, [1, 3]⟩⟩ = .ok ⟨2, 1, [1, 3]⟩ ∧
    EqSys.solve_lup ⟨⟨2, 2, [1, 0, 0, 1]⟩, ⟨2, 1, [1, 3]⟩⟩ = .ok ⟨2, 1, [1, 3]⟩ ∧
    (⟨2, 1, [1, 3]⟩ : Mat).rows = (⟨2, 2, [1, 0, 0, 1]⟩ : Mat).rows ∧
    (⟨2, 1, [1, 3]⟩ : Mat).cols = 1 := by
  have hrow : EqSys.solve_lup ⟨⟨2, 2, [1, 0, 0, 1]⟩, ⟨1, 2, [1, 3]⟩⟩ =
      .ok ⟨2, 1, [1, 3]⟩ := by
    norm_num [EqSys.solve_lup, lu_decompose_lup, lupLoopF, lupStep, pivotScan,
      pivotScanAux, identityM, elimL, elimU, swapL, Mat.ofFn, Mat.get, lupEps,
      forward_substitution, forwardList, backward_substitution, backwardList,
      vecAt, List.range_succ, List.range', abs_of_pos, abs_of_nonneg]
  have hcol : EqSys.solve_lup ⟨⟨2, 2, [1, 0, 0, 1]⟩, ⟨2, 1, [1, 3]⟩⟩ =
      .ok ⟨2, 1, [1, 3]⟩ := by
    norm_num [EqSys.solve_lup, lu_decompose_lup, lupLoopF, lupStep, pivotScan,
      pivotScanAux, identityM, elimL, elimU, swapL, Mat.ofFn, Mat.get, lupEps,
      forward_substitution, forwardList, backward_substitution, backwardList,
      vecAt, List.range_succ, List.range', abs_of_pos, abs_of_nonneg]
  have hmkrow := (C10_solution_is_column ⟨2, 2, [1, 0, 0, 1]⟩ ⟨1, 2, [1, 3]⟩).2
    (by norm_num) (Or.inl (by norm_num))
  have hmkcol := (C10_solution_is_column ⟨2, 2, [1, 0, 0, 1]⟩ ⟨2, 1, [1, 3]⟩).2
    (by norm_num) (Or.inr (by norm_num))
  have hshape := (C10_solution_is_column ⟨2, 2, [1, 0, 0, 1]⟩ ⟨1, 2, [1, 3]⟩).1
    ⟨⟨2, 2, [1, 0, 0, 1]⟩, ⟨1, 2, [1, 3]⟩⟩ ⟨2, 1, [1, 3]⟩ (by rfl) (by rfl) hmkrow hrow
  exact ⟨hmkrow, hmkcol, hrow, hcol, hshape.1, hshape.2⟩

/- Claim C7. -/

theorem Mat.setCol_get (m : Mat) (j0 : Nat) (vals : Nat → ℚ) {i c : Nat}
    (hi : i < m.rows) (hc : c < m.cols) :
    (m.setCol j0 vals).get i c = if c = j0 then vals i else m.get i c :=
  Mat.get_ofFn m.rows m.cols _ hi hc

/-- Characterization of the column loop of `build_jacobian_two_point`: after
the first `m` columns, the evaluation counter grew by exactly `m` (one
residual evaluation per column) and the processed columns hold the forward
difference quotients. -/
theorem jacFold_spec (sqrtME : ℚ) (funcs : List (List ℚ → ℚ)) (x : List ℚ) :
    ∀ (m : Nat) (J0 : Mat × Nat), J0.1.rows = funcs.length → J0.1.cols = funcs.length →
      ((List.range m).foldl (fun Jc j =>
          (Jc.1.setCol j (fun i =>
              ((computeF funcs (x.set j (x.getD j 0 + sqrtME * (1 + |x.getD j 0|)))).get i 0 -
                (computeF funcs x).get i 0) / (sqrtME * (1 + |x.getD j 0|))),
            Jc.2 + 1)) J0).2 = J0.2 + m ∧
      ((List.range m).foldl (fun Jc j =>
          (Jc.1.setCol j (fun i =>
              ((computeF funcs (x.set j (x.getD j 0 + sqrtME * (1 + |x.getD j 0|)))).get i 0 -
                (computeF funcs x).get i 0) / (sqrtME * (1 + |x.getD j 0|))),
            Jc.2 + 1)) J0).1.rows = funcs.length ∧
      ((List.range m).foldl (fun Jc j =>
          (Jc.1.setCol j (fun i =>
              ((computeF funcs (x.set j (x.getD j 0 + sqrtME * (1 + |x.getD j 0|)))).get i 0 -
                (computeF funcs x).get i 0) / (sqrtME * (1 + |x.getD j 0|))),
            Jc.2 + 1)) J0).1.cols = funcs.length ∧
      ∀ i j, i < funcs.length → j < funcs.length →
        ((List.range m).foldl (fun Jc j =>
          (Jc.1.setCol j (fun i =>
              ((computeF funcs (x.set j (x.getD j 0 + sqrtME * (1 + |x.getD j 0|)))).get i 0 -
                (computeF funcs x).get i 0) / (sqrtME * (1 + |x.getD j 0|))),
            Jc.2 + 1)) J0).1.get i j =
          if j < m then
            ((computeF funcs (x.set j (x.getD j 0 + sqrtME * (1 + |x.getD j 0|)))).get i 0 -
              (computeF funcs x).get i 0) / (sqrtME * (1 + |x.getD j 0|))
          else J0.1.get i j := by
  intro m
  induction m with
  | zero =>
    intro J0 h1 h2
    refine ⟨by simp, by simpa using h1, by simpa using h2, ?_⟩
    intro i j hi hj
    simp only [List.range_zero, List.foldl_nil]
    rw [if_neg (by omega)]
  | succ m ih =>
    intro J0 h1 h2
    obtain ⟨ihc, ihr, ihcc, ihget⟩ := ih J0 h1 h2
    rw [List.range_succ, List.foldl_append]
    refine ⟨?_, ?_, ?_, ?_⟩
    · simp only [List.foldl_cons, List.foldl_nil]
      rw [ihc]
      omega
    · simp only [List.foldl_cons, List.foldl_nil]
      exact ihr
    · simp only [List.foldl_cons, List.foldl_nil]
      exact ihcc
    · intro i j hi hj
      simp only [List.foldl_cons, List.foldl_nil]
      rw [Mat.setCol_get _ m _ (by rw [ihr]; exact hi) (by rw [ihcc]; exact hj)]
      by_cases hjm : j = m
      · rw [if_pos hjm, if_pos (by omega), hjm]
      · rw [if_neg hjm, ihget i j hi hj]
        by_cases hlt : j < m
        · rw [if_pos hlt, if_pos (by omega)]
        · rw [if_neg hlt, if_neg (by omega)]

/-- Claim C7: the two-point Jacobian builder evaluates `F(x)` once before
the loop and once more per column — `n + 1` residual evaluations in total —
and column `j` of the result holds the forward difference quotient
`(F(x + h_j e_j) - F(x)) / h_j` with the per-variable step
`h_j = sqrt(machine epsilon) * (1 + |x_j|)` (the value of
`sqrt(machine epsilon of T)` is the abstract parameter `sqrtME`, and the
indeterminate initial buffer `junk` never survives since every cell is
written). -/
theorem C7_two_point_jacobian (sqrtME : ℚ) (junk : Nat → ℚ)
    (funcs : List (List ℚ → ℚ)) (x : List ℚ) :
    (buildJacTwoPointC sqrtME junk funcs x).2 = funcs.length + 1 ∧
    (buildJacTwoPointC sqrtME junk funcs x).1.rows = funcs.length ∧
    (buildJacTwoPointC sqrtME junk funcs x).1.cols = funcs.length ∧
    (∀ i j, i < funcs.length → j < funcs.length →
      (buildJacTwoPointC sqrtME junk funcs x).1.get i j =
        ((computeF funcs (x.set j (x.getD j 0 + sqrtME * (1 + |x.getD j 0|)))).get i 0 -
          (computeF funcs x).get i 0) / (sqrtME * (1 + |x.getD j 0|))) ∧
    build_jacobian_two_point sqrtME junk funcs x =
      (buildJacTwoPointC sqrtME junk funcs x).1 := by
  have hmain := jacFold_spec sqrtME funcs x funcs.length
    (Mat.mkRC funcs.length funcs.length junk, 1) rfl rfl
  obtain ⟨hc, hr, hcc, hget⟩ := hmain
  have hbuild : buildJacTwoPointC sqrtME junk funcs x =
      (List.range funcs.length).foldl (fun Jc j =>
        (Jc.1.setCol j (fun i =>
            ((computeF funcs (x.set j (x.getD j 0 + sqrtME * (1 + |x.getD j 0|)))).get i 0 -
              (computeF funcs x).get i 0) / (sqrtME * (1 + |x.getD j 0|))),
          Jc.2 + 1)) (Mat.mkRC funcs.length funcs.length junk, 1) := rfl
  rw [hbuild]
  refine ⟨by rw [hc]; omega, hr, hcc, ?_, rfl⟩
  intro i j hi hj
  rw [hget i j hi hj, if_pos hj]

/-- Claim C7, witness: for the single residual `f(v) = v_0 * v_0` at
`x = [3]` with `sqrt(eps) = 2 ^ (-26)`, the builder performs exactly 2
residual evaluations and its only entry is the forward difference quotient
at step `h = 2^(-26) * 4`. -/
theorem C7_witness :
    (buildJacTwoPointC (1 / 2 ^ 26) (fun _ => 0)
      [fun v => v.getD 0 0 * v.getD 0 0] [3]).2 = 2 ∧
    (buildJacTwoPointC (1 / 2 ^ 26) (fun _ => 0)
        [fun v => v.getD 0 0 * v.getD 0 0] [3]).1.get 0 0 =
      ((computeF [fun v => v.getD 0 0 * v.getD 0 0]
          (([3] : List ℚ).set 0 ((3 : ℚ) + 1 / 2 ^ 26 * (1 + |(3 : ℚ)|)))).get 0 0 -
        (computeF [fun v => v.getD 0 0 * v.getD 0 0] [3]).get 0 0) /
          (1 / 2 ^ 26 * (1 + |(3 : ℚ)|)) := by
  have h := C7_two_point_jacobian (1 / 2 ^ 26) (fun _ => 0)
    [fun v => v.getD 0 0 * v.getD 0 0] [3]
  refine ⟨h.1, ?_⟩
  have hget := h.2.2.2.1 0 0 (by norm_num) (by norm_num)
  rw [hget]
  norm_num

/- Claims C4 and C8. -/

/-- Elementwise value of the damped update: within the common length,
`x_next[i] = x[i] + lambda * step[i]`. -/
theorem dampedUpdate_getD (lam : ℚ) :
    ∀ (x s : List ℚ) (i : Nat), i < x.length → i < s.length →
      (dampedUpdate lam x s).getD i 0 = x.getD i 0 + lam * s.getD i 0 := by
  intro x
  induction x with
  | nil =>
    intro s i h1 _
    simp at h1
  | cons a as ih =>
    intro s i h1 h2
    cases s with
    | nil => simp at h2
    | cons b bs =>
      cases i with
      | zero => simp [dampedUpdate]
      | succ n =>
        have := ih bs n (by simpa using h1) (by simpa using h2)
        simpa [dampedUpdate] using this

/-- Trace characterization of the iteration loop: on an accepted run the
trace extends the accumulator with entries whose Jacobian came from
`selectJacobian` at the entry's own iterate, whose step solved the linear
system, whose applied updates are exactly the damped update, and whose
non-applied entry (if any) is the step-criterion stop: the criterion held,
the run converged, and the final iterate is the entry's `x`, untouched. -/
theorem newtonLoop_trace_spec (normFn : List ℚ → ℚ) (sqrtME : ℚ) (junk : Nat → ℚ)
    (funcs : List (List ℚ → ℚ)) (cfg : NewtonCfg) (Jfrozen : Mat) :
    ∀ (fuel k : Nat) (x : List ℚ) (tr : List IterEntry) (res : RunResult),
      newtonLoop normFn sqrtME junk funcs cfg Jfrozen fuel k x tr = .ok res →
      ∃ new : List IterEntry, res.trace = tr ++ new ∧
        ∀ e ∈ new,
          e.J = selectJacobian cfg sqrtME junk funcs Jfrozen e.x ∧
          solve_step e.J (computeF funcs e.x) = .ok e.step ∧
          (e.updated = true → e.xNext = dampedUpdate cfg.lambda e.x e.step) ∧
          (e.updated = false →
            normFn e.step < cfg.epsX * (1 + normFn e.x) ∧
            res.converged = true ∧ res.x = e.x ∧ e.xNext = e.x) := by
  intro fuel
  induction fuel with
  | zero =>
    intro k x tr res h
    simp only [newtonLoop] at h
    have hres := Except.ok.inj h
    subst hres
    refine ⟨[], by simp, ?_⟩
    intro e he
    exact absurd he (by simp)
  | succ fuel ih =>
    intro k x tr res h
    simp only [newtonLoop] at h
    split at h
    · have hres := Except.ok.inj h
      subst hres
      refine ⟨[], by simp, ?_⟩
      intro e he
      exact absurd he (by simp)
    · split at h
      · exact Except.noConfusion h
      · next step heq =>
        split at h
        · next h2 =>
          have hres := Except.ok.inj h
          subst hres
          refine ⟨[⟨k, x, selectJacobian cfg sqrtME junk funcs Jfrozen x, step,
            false, x⟩], by simp, ?_⟩
          intro e he
          have he' : e = ⟨k, x, selectJacobian cfg sqrtME junk funcs Jfrozen x,
              step, false, x⟩ := by simpa using he
          subst he'
          refine ⟨rfl, heq, ?_, ?_⟩
          · intro habs
            exact Bool.noConfusion habs
          · intro _
            exact ⟨h2, rfl, rfl, rfl⟩
        · next h2 =>
          obtain ⟨new', htr, hprop⟩ := ih (k + 1) (dampedUpdate cfg.lambda x step)
            (tr ++ [⟨k, x, selectJacobian cfg sqrtME junk funcs Jfrozen x, step,
              true, dampedUpdate cfg.lambda x step⟩]) res h
          refine ⟨⟨k, x, selectJacobian cfg sqrtME junk funcs Jfrozen x, step,
            true, dampedUpdate cfg.lambda x step⟩ :: new', ?_, ?_⟩
          · rw [htr]
            simp
          · intro e he
            rcases List.mem_cons.mp he with rfl | hmem
            · refine ⟨rfl, heq, fun _ => rfl, ?_⟩
              intro habs
              exact Bool.noConfusion habs
            · exact hprop e hmem

/-- One driver run equals the loop started from the frozen Jacobian. -/
theorem newtonRun_eq (normFn : List ℚ → ℚ) (sqrtME : ℚ) (junk : Nat → ℚ)
    (funcs : List (List ℚ → ℚ)) (cfg : NewtonCfg) (x0 : List ℚ) :
    newtonRun normFn sqrtME junk funcs cfg x0 =
      newtonLoop normFn sqrtME junk funcs cfg
        (newtonJfrozen sqrtME junk funcs cfg x0) cfg.maxIter 0 x0 [] := rfl

/-- Claim C4, corrected: in the driver loop the step-size test
`norm(s) < eps_x * (1 + norm(x_k))` is evaluated BEFORE the damped update is
applied (src/main.cpp:595-613), so when the run converges by the step
criterion at iteration k the final reported iterate equals `x_k`, not
`x_k + lambda * s_k`; every update that IS applied satisfies
`x_{k+1} - x_k = lambda * s_k` exactly elementwise. -/
theorem C4_step_test_before_update (normFn : List ℚ → ℚ) (sqrtME : ℚ)
    (junk : Nat → ℚ) (funcs : List (List ℚ → ℚ)) (cfg : NewtonCfg)
    (x0 : List ℚ) (res : RunResult) (e : IterEntry)
    (hrun : newtonRun normFn sqrtME junk funcs cfg x0 = .ok res)
    (he : e ∈ res.trace) :
    (e.updated = true →
      e.xNext = dampedUpdate cfg.lambda e.x e.step ∧
      ∀ i, i < e.x.length → i < e.step.length →
        e.xNext.getD i 0 - e.x.getD i 0 = cfg.lambda * e.step.getD i 0) ∧
    (e.updated = false →
      normFn e.step < cfg.epsX * (1 + normFn e.x) ∧
      res.converged = true ∧ res.x = e.x ∧ e.xNext = e.x) := by
  rw [newtonRun_eq] at hrun
  obtain ⟨new, htr, hprop⟩ := newtonLoop_trace_spec normFn sqrtME junk funcs cfg
    (newtonJfrozen sqrtME junk funcs cfg x0) cfg.maxIter 0 x0 [] res hrun
  rw [htr] at he
  simp only [List.nil_append] at he
  obtain ⟨hJ, hsolve, hupd, hstop⟩ := hprop e he
  refine ⟨?_, hstop⟩
  intro ht
  have hx := hupd ht
  refine ⟨hx, ?_⟩
  intro i h1 h2
  rw [hx, dampedUpdate_getD cfg.lambda e.x e.step i h1 h2]
  ring

/-- Claim C4, counterexample to the original ordering: for
`F(x) = x - 2`, manual Jacobian `[[1]]`, `lambda = 1/2`, `eps_F = 1/10`,
`eps_X = 3`, starting at `x0 = [0]`, the first step is `s = [2]` and the
step criterion fires immediately, so the run stops with final iterate
`[0]` — the update was never applied — whereas the claimed order
(update first, then test) would report `x0 + lambda * s = [1]`. -/
theorem C4_counterexample :
    newtonRun absHead 0 (fun _ => 0) [fun v => v.getD 0 0 - 2]
        ⟨.newton, .manual, .twoPoint, 1 / 2, 1 / 10, 3, 5, ⟨1, 1, [1]⟩⟩ [0] =
      .ok ⟨true, [0], 1, [⟨0, [0], ⟨1, 1, [1]⟩, [2], false, [0]⟩]⟩ ∧
    dampedUpdate (1 / 2) [0] [2] = [1] ∧ ([0] : List ℚ) ≠ [1] := by
  refine ⟨?_, by norm_num [dampedUpdate], by simp⟩
  norm_num [newtonRun, newtonLoop, newtonJfrozen, selectJacobian, computeF,
    absHead, solve_step, column_matrix_to_array, mkEqSys, isVec, vecLen,
    dampedUpdate, EqSys.solve_lup, lu_decompose_lup, lupLoopF, lupStep,
    pivotScan, pivotScanAux, identityM, elimL, elimU, Mat.ofFn, Mat.get,
    Mat.mkRC, lupEps, forward_substitution, forwardList,
    backward_substitution, backwardList, vecAt, List.range_succ, List.range',
    abs_of_pos, abs_of_nonneg]

/-- Claim C4, witness: on the run of the counterexample configuration the
amended theorem instantiates at the recorded non-applied entry — the step
criterion held, the run converged, and the final iterate equals that
entry's `x`, which the update never touched. -/
theorem C4_witness :
    newtonRun absHead 0 (fun _ => 0) [fun v => v.getD 0 0 - 2]
        ⟨.newton, .manual, .twoPoint, 1 / 2, 1 / 10, 3, 5, ⟨1, 1, [1]⟩⟩ [0] =
      .ok ⟨true, [0], 1, [⟨0, [0], ⟨1, 1, [1]⟩, [2], false, [0]⟩]⟩ ∧
    absHead [2] < 3 * (1 + absHead [0]) ∧
    (⟨true, [0], 1, [⟨0, [0], ⟨1, 1, [1]⟩, [2], false, [0]⟩]⟩ :
      RunResult).converged = true ∧
    (⟨true, [0], 1, [⟨0, [0], ⟨1, 1, [1]⟩, [2], false, [0]⟩]⟩ :
      RunResult).x = [0] ∧
    ([0] : List ℚ) = [0] := by
  have hrun : newtonRun absHead 0 (fun _ => 0) [fun v => v.getD 0 0 - 2]
      ⟨.newton, .manual, .twoPoint, 1 / 2, 1 / 10, 3, 5, ⟨1, 1, [1]⟩⟩ [0] =
      .ok ⟨true, [0], 1, [⟨0, [0], ⟨1, 1, [1]⟩, [2], false, [0]⟩]⟩ := by
    norm_num [newtonRun, newtonLoop, newtonJfrozen, selectJacobian, computeF,
      absHead, solve_step, column_matrix_to_array, mkEqSys, isVec, vecLen,
      dampedUpdate, EqSys.solve_lup, lu_decompose_lup, lupLoopF, lupStep,
      pivotScan, pivotScanAux, identityM, elimL, elimU, Mat.ofFn, Mat.get,
      Mat.mkRC, lupEps, forward_substitution, forwardList,
      backward_substitution, backwardList, vecAt, List.range_succ,
      List.range', abs_of_pos, abs_of_nonneg]
  have h := C4_step_test_before_update absHead 0 (fun _ => 0)
    [fun v => v.getD 0 0 - 2]
    ⟨.newton, .manual, .twoPoint, 1 / 2, 1 / 10, 3, 5, ⟨1, 1, [1]⟩⟩ [0]
    ⟨true, [0], 1, [⟨0, [0], ⟨1, 1, [1]⟩, [2], false, [0]⟩]⟩
    ⟨0, [0], ⟨1, 1, [1]⟩, [2], false, [0]⟩ hrun (by simp)
  have h2 := h.2 rfl
  exact ⟨hrun, h2.1, h2.2.1, h2.2.2.1, h2.2.2.2⟩

/-- Claim C8: Jacobian acquisition follows the configured mode for the whole
run — with Modified Newton and numeric source every trace entry's Jacobian
is the single matrix computed from `x0` before the loop; with plain Newton
and numeric source every entry's Jacobian is recomputed from the entry's
own iterate; in manual mode (either method) every entry uses the externally
supplied matrix unchanged. -/
theorem C8_jacobian_modes (normFn : List ℚ → ℚ) (sqrtME : ℚ) (junk : Nat → ℚ)
    (funcs : List (List ℚ → ℚ)) (cfg : NewtonCfg) (x0 : List ℚ)
    (res : RunResult) (e : IterEntry)
    (hrun : newtonRun normFn sqrtME junk funcs cfg x0 = .ok res)
    (he : e ∈ res.trace) :
    (cfg.method = .modifiedNewton → cfg.jmode = .numeric →
      e.J = buildNumericJacobian cfg.formula sqrtME junk funcs x0) ∧
    (cfg.method = .modifiedNewton → cfg.jmode = .manual → e.J = cfg.Jmanual) ∧
    (cfg.method = .newton → cfg.jmode = .numeric →
      e.J = buildNumericJacobian cfg.formula sqrtME junk funcs e.x) ∧
    (cfg.method = .newton → cfg.jmode = .manual → e.J = cfg.Jmanual) := by
  rw [newtonRun_eq] at hrun
  obtain ⟨new, htr, hprop⟩ := newtonLoop_trace_spec normFn sqrtME junk funcs cfg
    (newtonJfrozen sqrtME junk funcs cfg x0) cfg.maxIter 0 x0 [] res hrun
  rw [htr] at he
  simp only [List.nil_append] at he
  have hJ := (hprop e he).1
  refine ⟨?_, ?_, ?_, ?_⟩ <;>
    intro hm hj <;> rw [hJ] <;> simp [selectJacobian, newtonJfrozen, hm, hj]

/-- Claim C8, witness: a Modified Newton run with numeric two-point source
on `F(x) = x^2 - 4` from `x0 = [1]` takes two passes through the solve; both
trace entries carry the same matrix `[[4]]`, the two-point Jacobian computed
at `x0` — even though the second entry's iterate is `[7/4]`. -/
theorem C8_witness :
    newtonRun absHead 1 (fun _ => 0) [fun v => v.getD 0 0 * v.getD 0 0 - 4]
        ⟨.modifiedNewton, .numeric, .twoPoint, 1, 1 / 10, 1 / 10, 2,
          ⟨0, 0, []⟩⟩ [1] =
      .ok ⟨true, [7 / 4], 2,
        [⟨0, [1], ⟨1, 1, [4]⟩, [3 / 4], true, [7 / 4]⟩,
         ⟨1, [7 / 4], ⟨1, 1, [4]⟩, [15 / 64], false, [7 / 4]⟩]⟩ ∧
    (⟨0, [1], ⟨1, 1, [4]⟩, [3 / 4], true, [7 / 4]⟩ : IterEntry).J =
      buildNumericJacobian .twoPoint 1 (fun _ => 0)
        [fun v => v.getD 0 0 * v.getD 0 0 - 4] [1] ∧
    (⟨1, [7 / 4], ⟨1, 1, [4]⟩, [15 / 64], false, [7 / 4]⟩ : IterEntry).J =
      buildNumericJacobian .twoPoint 1 (fun _ => 0)
        [fun v => v.getD 0 0 * v.getD 0 0 - 4] [1] := by
  have hrun : newtonRun absHead 1 (fun _ => 0)
      [fun v => v.getD 0 0 * v.getD 0 0 - 4]
      ⟨.modifiedNewton, .numeric, .twoPoint, 1, 1 / 10, 1 / 10, 2,
        ⟨0, 0, []⟩⟩ [1] =
      .ok ⟨true, [7 / 4], 2,
        [⟨0, [1], ⟨1, 1, [4]⟩, [3 / 4], true, [7 / 4]⟩,
         ⟨1, [7 / 4], ⟨1, 1, [4]⟩, [15 / 64], false, [7 / 4]⟩]⟩ := by
    norm_num [newtonRun, newtonLoop, newtonJfrozen, selectJacobian,
      buildNumericJacobian, build_jacobian_two_point, buildJacTwoPointC,
      computeFCounted, Mat.setCol, computeF, absHead, solve_step,
      column_matrix_to_array, mkEqSys, isVec, vecLen, dampedUpdate,
      EqSys.solve_lup, lu_decompose_lup, lupLoopF, lupStep, pivotScan,
      pivotScanAux, identityM, elimL, elimU, Mat.ofFn, Mat.get, Mat.mkRC,
      lupEps, forward_substitution, forwardList, backward_substitution,
      backwardList, vecAt, List.range_succ, List.range', abs_of_pos,
      abs_of_nonneg]
  have h1 := (C8_jacobian_modes absHead 1 (fun _ => 0)
    [fun v => v.getD 0 0 * v.getD 0 0 - 4]
    ⟨.modifiedNewton, .numeric, .twoPoint, 1, 1 / 10, 1 / 10, 2, ⟨0, 0, []⟩⟩
    [1]
    ⟨true, [7 / 4], 2,
      [⟨0, [1], ⟨1, 1, [4]⟩, [3 / 4], true, [7 / 4]⟩,
       ⟨1, [7 / 4], ⟨1, 1, [4]⟩, [15 / 64], false, [7 / 4]⟩]⟩
    ⟨0, [1], ⟨1, 1, [4]⟩, [3 / 4], true, [7 / 4]⟩ hrun (by simp)).1 rfl rfl
  have h2 := (C8_jacobian_modes absHead 1 (fun _ => 0)
    [fun v => v.getD 0 0 * v.getD 0 0 - 4]
    ⟨.modifiedNewton, .numeric, .twoPoint, 1, 1 / 10, 1 / 10, 2, ⟨0, 0, []⟩⟩
    [1]
    ⟨true, [7 / 4], 2,
      [⟨0, [1], ⟨1, 1, [4]⟩, [3 / 4], true, [7 / 4]⟩,
       ⟨1, [7 / 4], ⟨1, 1, [4]⟩, [15 / 64], false, [7 / 4]⟩]⟩
    ⟨1, [7 / 4], ⟨1, 1, [4]⟩, [15 / 64], false, [7 / 4]⟩ hrun (by simp)).1
    rfl rfl
  exact ⟨hrun, h1, h2⟩

end QM
